import Mathlib

/-!
# A shallow embedding of the `persistence_windows` subsystem

This file embeds `persistence_windows/src/persistence_windows.rs` of the
`cjl_influxdb` repository into Lean 4 and proves properties of the embedding.

Conventions of the embedding:

* `Time` values (the `time` crate's `Time`, a nanosecond-precision wall-clock
  timestamp with a maximal representable value) are embedded as `Int`
  nanoseconds together with an upper bound `timeMax`; `Time::checked_add`
  returns `none` exactly when the sum exceeds `timeMax`.
  `Duration` values are embedded as `Nat` nanoseconds.
* A Rust `BTreeMap` is embedded as a key-sorted association list
  `List (Nat × α)`; insertion keeps the list sorted, matching the map's
  iteration order.
* A Rust panic (a failed `assert!` / `expect`) is embedded as `none`: every
  operation that can panic returns an `Option`.
* The `Freezable<Option<Window>>` cell holding the persistable window is
  embedded as the pair of fields `persistable : Option Window` and
  `frozen : Bool`; `get_mut` fails when `frozen` is set, `try_freeze` sets it,
  `unfreeze` clears it.
* Effectful reads of `TimeProvider::now()` become explicit `Int` parameters,
  one per call site (e.g. `PersistenceWindows::add_range` reads the clock once
  for the arrival clamp and once inside `rotate`, so its embedding takes two
  clock arguments).
-/

/-- Maximal representable `Time` value (`Time::MAX`), in nanoseconds.
Modelled from the spec: the `time` crate is not part of the sources; we model
a timestamp as a bounded integer number of nanoseconds. -/
def timeMax : Int := 2 ^ 63 - 1

/-- `Time::checked_add(duration)`: `none` on overflow past `timeMax`. -/
def checkedAdd (t : Int) (d : Nat) : Option Int :=
  if t + (d : Int) ≤ timeMax then some (t + (d : Int)) else none

/-- `Time::checked_duration_since(earlier)`: `none` when the clock regressed. -/
def checkedDurationSince (now earlier : Int) : Option Nat :=
  if earlier ≤ now then some (now - earlier).toNat else none

/-- `data_types::sequence::Sequence`: a sequencer id and a sequence number. -/
structure Sequence where
  id : Nat
  number : Nat
deriving DecidableEq, Repr

/-- `MinMaxSequence`: the minimum and maximum sequence number seen.
Modelled from the spec: `min_max_sequence.rs` is not part of the sources;
the spec records the invariant `min ≤ max` but the record itself is a plain
pair. -/
structure MinMaxSequence where
  min : Nat
  max : Nat
deriving DecidableEq, Repr

/-- `OptionalMinMaxSequence`: an optional minimum and a mandatory maximum.
Modelled from the spec (`min_max_sequence.rs` is not part of the sources). -/
structure OptionalMinMaxSequence where
  min : Option Nat
  max : Nat
deriving DecidableEq, Repr

namespace SeqMap

/-- Lookup in an association list (`BTreeMap::get`). -/
def lookup (k : Nat) : List (Nat × α) → Option α
  | [] => none
  | (k', v) :: rest => if k = k' then some v else lookup k rest

/-- Insert into a key-sorted association list, combining with `upd` when the
key is already present (`BTreeMap` entry API: occupied ↦ `upd old`, vacant ↦
`v`). -/
def insertWith (upd : α → α) (k : Nat) (v : α) : List (Nat × α) → List (Nat × α)
  | [] => [(k, v)]
  | (k', v') :: rest =>
    if k < k' then (k, v) :: (k', v') :: rest
    else if k = k' then (k', upd v') :: rest
    else (k', v') :: insertWith upd k v rest

/-- Keys are sorted strictly increasing (the `BTreeMap` representation
invariant). -/
def keysSorted (l : List (Nat × α)) : Prop :=
  List.Pairwise (fun a b => a.1 < b.1) l

instance (l : List (Nat × α)) : Decidable (keysSorted l) :=
  inferInstanceAs (Decidable (List.Pairwise _ l))

end SeqMap

/-- Collect an effectful map over a list, failing if any element fails (the
`Option`-monad traversal used to embed a loop whose body can panic). -/
def seqTraverse (f : α → Option β) : List α → Option (List β)
  | [] => some []
  | a :: rest =>
    match f a with
    | none => none
    | some b =>
      match seqTraverse f rest with
      | none => none
      | some bs => some (b :: bs)

/-- A `Window`: a contiguous group of writes with aggregate statistics. -/
structure Window where
  time_of_first_write : Int
  time_of_last_write : Int
  row_count : Nat
  min_time : Int
  max_time : Int
  sequencer_numbers : List (Nat × MinMaxSequence)
deriving DecidableEq, Repr

namespace Window

/-- `Window::new`. -/
def new (time_of_write : Int) (sequence : Option Sequence) (row_count : Nat)
    (min_time max_time : Int) : Window :=
  let sequencer_numbers :=
    match sequence with
    | some s => [(s.id, MinMaxSequence.mk s.number s.number)]
    | none => []
  { time_of_first_write := time_of_write
    time_of_last_write := time_of_write
    row_count := row_count
    min_time := min_time
    max_time := max_time
    sequencer_numbers := sequencer_numbers }

/-- The sequencer-map update inside `Window::add_range`: extend the entry for
`s.id`, panicking (`none`) unless the new number strictly exceeds the
recorded maximum; insert a fresh `(number, number)` entry otherwise. -/
def addSeq (s : Sequence) : List (Nat × MinMaxSequence) →
    Option (List (Nat × MinMaxSequence))
  | [] => some [(s.id, MinMaxSequence.mk s.number s.number)]
  | (k, n) :: rest =>
    if s.id < k then some ((s.id, MinMaxSequence.mk s.number s.number) :: (k, n) :: rest)
    else if s.id = k then
      if n.max < s.number then some ((k, MinMaxSequence.mk n.min s.number) :: rest)
      else none
    else do
      let r ← addSeq s rest
      some ((k, n) :: r)

/-- `Window::add_range`. -/
def add_range (w : Window) (sequence : Option Sequence) (row_count : Nat)
    (min_time max_time time_of_write : Int) : Option Window :=
  if w.time_of_first_write ≤ time_of_write ∧ w.time_of_last_write ≤ time_of_write then
    (match sequence with
      | some s => addSeq s w.sequencer_numbers
      | none => some w.sequencer_numbers).map fun seqs =>
      { w with
        time_of_last_write := time_of_write
        row_count := w.row_count + row_count
        min_time := min w.min_time min_time
        max_time := max w.max_time max_time
        sequencer_numbers := seqs }
  else none

/-- The sequencer-map union loop of `Window::add_window`: fold the entries of
`other` (in key order) into `self`, panicking (`none`) unless each colliding
entry's maximum strictly exceeds the existing maximum. -/
def mergeSeqs (self : List (Nat × MinMaxSequence)) :
    List (Nat × MinMaxSequence) → Option (List (Nat × MinMaxSequence))
  | [] => some self
  | (k, other_n) :: rest =>
    match SeqMap.lookup k self with
    | some n =>
      if n.max < other_n.max then
        mergeSeqs (SeqMap.insertWith (fun x => MinMaxSequence.mk x.min other_n.max)
          k other_n self) rest
      else none
    | none => mergeSeqs (SeqMap.insertWith (fun x => x) k other_n self) rest

/-- `Window::add_window`: collapse a closed window into the persistable one. -/
def add_window (w other : Window) : Option Window :=
  if w.time_of_last_write ≤ other.time_of_first_write ∧
      w.time_of_last_write ≤ other.time_of_last_write then
    (mergeSeqs w.sequencer_numbers other.sequencer_numbers).map fun seqs =>
      { w with
        time_of_last_write := other.time_of_last_write
        row_count := w.row_count + other.row_count
        min_time := min w.min_time other.min_time
        max_time := max w.max_time other.max_time
        sequencer_numbers := seqs }
  else none

/-- `Window::is_closeable`. -/
def is_closeable (w : Window) (now : Int) (closed_window_period : Nat) : Bool :=
  match checkedDurationSince now w.time_of_first_write with
  | some x => closed_window_period ≤ x
  | none => false

/-- `Window::is_persistable`. -/
def is_persistable (w : Window) (now : Int) (late_arrival_period : Nat) : Bool :=
  match checkedDurationSince now w.time_of_first_write with
  | some x => late_arrival_period ≤ x
  | none => false

end Window

/-- `FlushHandle` (minus the opaque partition address; the `FreezeHandle` it
owns is represented by the `frozen` flag of the state it was taken from). -/
structure FlushHandle where
  closed_count : Nat
  timestamp : Int
  sequencer_numbers : List (Nat × OptionalMinMaxSequence)
deriving DecidableEq, Repr

/-- `PartitionCheckpoint` (minus table name and partition key).
Modelled from the spec: `checkpoint.rs` is not part of the sources; the spec
describes it as a per-partition record of sequencer ranges plus the flush
timestamp. -/
structure PartitionCheckpoint where
  sequencer_numbers : List (Nat × OptionalMinMaxSequence)
  flush_timestamp : Int
deriving DecidableEq, Repr

/-- `FlushHandle::checkpoint`. -/
def FlushHandle.checkpoint (h : FlushHandle) : PartitionCheckpoint :=
  { sequencer_numbers := h.sequencer_numbers, flush_timestamp := h.timestamp }

/-- `DEFAULT_CLOSED_WINDOW` = 30 s, in nanoseconds. -/
def DEFAULT_CLOSED_WINDOW : Nat := 30 * 1000000000

/-- `PersistenceWindows` (minus the opaque partition address and the time
provider, whose `now()` readings become explicit arguments). -/
structure PersistenceWindows where
  persistable : Option Window
  frozen : Bool
  closed : List Window
  openW : Option Window
  late_arrival_period : Nat
  closed_window_period : Nat
  time_of_last_write : Int
  max_sequence_numbers : List (Nat × Nat)
deriving DecidableEq, Repr

namespace PersistenceWindows

/-- `PersistenceWindows::new` (`now` is the provider reading at creation). -/
def new (late_arrival_period : Nat) (now : Int) : PersistenceWindows :=
  { persistable := none
    frozen := false
    closed := []
    openW := none
    late_arrival_period := late_arrival_period
    closed_window_period := min late_arrival_period DEFAULT_CLOSED_WINDOW
    time_of_last_write := now
    max_sequence_numbers := [] }

/-- `PersistenceWindows::windows`: oldest-first iteration
`persistable` → `closed` → `open`. -/
def windowsList (s : PersistenceWindows) : List Window :=
  s.persistable.toList ++ s.closed ++ s.openW.toList

/-- `PersistenceWindows::is_empty`. -/
def is_empty (s : PersistenceWindows) : Bool :=
  s.windowsList.isEmpty

/-- The `max_sequence_numbers` update inside `PersistenceWindows::add_range`:
panics (`none`) when the sequencer was seen before with a number that is not
strictly smaller. -/
def updateMaxSeq (q : Sequence) : List (Nat × Nat) → Option (List (Nat × Nat))
  | [] => some [(q.id, q.number)]
  | (k, v) :: rest =>
    if q.id < k then some ((q.id, q.number) :: (k, v) :: rest)
    else if q.id = k then
      if v < q.number then some ((k, q.number) :: rest) else none
    else do
      let r ← updateMaxSeq q rest
      some ((k, v) :: r)

/-- The persistable-merge loop of `rotate_impl`: while the front closed window
is persistable, pop it and fold it into the persistable window. -/
def rotateLoop (persistable : Option Window) (closed : List Window)
    (now : Int) (late_arrival_period : Nat) :
    Option (Option Window × List Window) :=
  match closed with
  | [] => some (persistable, [])
  | w :: rest =>
    if w.is_persistable now late_arrival_period then
      match persistable with
      | some p => do
        let m ← p.add_window w
        rotateLoop (some m) rest now late_arrival_period
      | none => rotateLoop (some w) rest now late_arrival_period
    else some (persistable, w :: rest)

/-- `PersistenceWindows::rotate_impl`. -/
def rotate_impl (s : PersistenceWindows) (now : Int) : Option PersistenceWindows :=
  let doRotate :=
    match s.openW with
    | some w => w.is_closeable now s.closed_window_period
    | none => false
  let s :=
    if doRotate then
      { s with closed := s.closed ++ s.openW.toList, openW := none }
    else s
  if s.frozen then some s
  else
    (rotateLoop s.persistable s.closed now s.late_arrival_period).map fun pc =>
      { s with persistable := pc.1, closed := pc.2 }

/-- `PersistenceWindows::add_range`. `now_write` and `now_rotate` are the two
`TimeProvider::now()` readings the call performs (for the arrival-time clamp
and inside `rotate`, respectively). -/
def add_range (s : PersistenceWindows) (sequence : Option Sequence)
    (row_count : Nat) (min_time max_time : Int)
    (now_write now_rotate : Int) : Option PersistenceWindows :=
  let time_of_write := max s.time_of_last_write now_write
  if min_time ≤ max_time then
    let s := { s with time_of_last_write := time_of_write }
    match (match sequence with
            | some q => updateMaxSeq q s.max_sequence_numbers
            | none => some s.max_sequence_numbers) with
    | none => none
    | some maxSeqs =>
      match rotate_impl { s with max_sequence_numbers := maxSeqs } now_rotate with
      | none => none
      | some s =>
        match s.openW with
        | some w =>
          (w.add_range sequence row_count min_time max_time time_of_write).map
            fun w' => { s with openW := some w' }
        | none =>
          some { s with
            openW := some (Window.new time_of_write sequence row_count min_time max_time) }
  else none

/-- The per-sequencer scan of `sequencer_numbers_inner`: the first window (in
the given oldest-first list) that both survives the flush-time filter and
contains the sequencer. -/
def firstSeq (ws : List Window) (flush_time : Option Int) (k : Nat) :
    Option MinMaxSequence :=
  ws.findSome? fun w =>
    match flush_time with
    | some t => if w.max_time ≤ t then none else SeqMap.lookup k w.sequencer_numbers
    | none => SeqMap.lookup k w.sequencer_numbers

/-- `PersistenceWindows::sequencer_numbers_inner`. The `is_empty` branch in
the source evaluates a discarded unit default and falls through to the loop,
so it is a no-op and is not reproduced here. The `assert!` on each found
window's maximum is the `none` case. -/
def sequencer_numbers_inner (s : PersistenceWindows) (skip_persistable : Bool) :
    Option (List (Nat × OptionalMinMaxSequence)) :=
  let skipAndFlush : Nat × Option Int :=
    match skip_persistable, s.persistable with
    | true, some p => (1, some p.max_time)
    | _, _ => (0, none)
  seqTraverse (fun kv =>
    match firstSeq (s.windowsList.drop skipAndFlush.1) skipAndFlush.2 kv.1 with
    | some mm =>
      if mm.max ≤ kv.2 then some (kv.1, OptionalMinMaxSequence.mk (some mm.min) kv.2)
      else none
    | none => some (kv.1, OptionalMinMaxSequence.mk none kv.2))
    s.max_sequence_numbers

/-- `PersistenceWindows::sequencer_numbers`. -/
def sequencer_numbers (s : PersistenceWindows) :
    Option (List (Nat × OptionalMinMaxSequence)) :=
  s.sequencer_numbers_inner false

/-- `PersistenceWindows::flush_handle_impl`. Returns `none` on panic; on
normal return, the first component is the `Option<FlushHandle>` result and the
second the mutated state. -/
def flush_handle_impl (s : PersistenceWindows) (now : Int) :
    Option (Option FlushHandle × PersistenceWindows) :=
  -- `self.persistable.get_mut()?`: refuse if a freeze handle is outstanding
  if s.frozen then some (none, s)
  else
    -- close the current open window unconditionally
    match rotate_impl { s with closed := s.closed ++ s.openW.toList, openW := none } now with
    | none => none
    | some s =>
      match s.persistable with
      | none =>
        -- `try_freeze` succeeded but `as_ref()?` failed: the fresh freeze
        -- handle is dropped, releasing the lease; the handle option is `None`
        some (none, s)
      | some p =>
        (s.sequencer_numbers_inner true).map fun seqs =>
          (some { closed_count := s.closed.length
                  timestamp := p.max_time
                  sequencer_numbers := seqs },
           { s with frozen := true })

/-- `PersistenceWindows::flush_handle` (one provider reading). -/
def flush_handle (s : PersistenceWindows) (now : Int) :
    Option (Option FlushHandle × PersistenceWindows) :=
  s.flush_handle_impl now

/-- `PersistenceWindows::flush_all_handle`. -/
def flush_all_handle (s : PersistenceWindows) :
    Option (Option FlushHandle × PersistenceWindows) :=
  s.flush_handle_impl timeMax

/-- The truncation applied to each of the first `closed_count` closed windows
by `flush`. -/
def truncMin (new_min : Int) (w : Window) : Window :=
  if w.min_time < new_min then { w with min_time := new_min } else w

/-- `PersistenceWindows::flush` (a.k.a. `complete_flush`). `unfreeze` consumes
the handle's `FreezeHandle`, which exists only while `frozen` is set. -/
def flush (s : PersistenceWindows) (h : FlushHandle) : Option PersistenceWindows :=
  if h.closed_count ≤ s.closed.length ∧ s.frozen then
    match s.persistable with
    | none => none
    | some p =>
      if p.max_time = h.timestamp then
        let s := { s with persistable := none, frozen := false }
        match checkedAdd p.max_time 1 with
        | some new_min =>
          let pre := (s.closed.take h.closed_count).map (truncMin new_min)
          let tail := s.closed.drop h.closed_count
          some { s with closed := pre.filter (fun w => new_min ≤ w.max_time) ++ tail }
        | none =>
          some { s with closed := [] }
      else none
  else none

/-- `PersistenceWindows::mark_seen_and_persisted`. -/
def mark_seen_and_persisted (s : PersistenceWindows) (cp : PartitionCheckpoint) :
    PersistenceWindows :=
  { s with
    max_sequence_numbers :=
      cp.sequencer_numbers.foldl
        (fun m kv => SeqMap.insertWith (fun old => max old kv.2.max) kv.1 kv.2.max m)
        s.max_sequence_numbers }

/-- `PersistenceWindows::persistable_row_count` (`now` is the provider
reading). -/
def persistable_row_count (s : PersistenceWindows) (now : Int) : Nat :=
  ((s.windowsList.takeWhile fun w => w.is_persistable now s.late_arrival_period).map
    Window.row_count).sum

end PersistenceWindows

namespace PersistenceWindows

/-- `PersistenceWindows::set_late_arrival_period`. -/
def set_late_arrival_period (s : PersistenceWindows) (late_arrival_period : Nat) :
    PersistenceWindows :=
  { s with
    closed_window_period := min late_arrival_period DEFAULT_CLOSED_WINDOW
    late_arrival_period := late_arrival_period }

/-- Dropping a `FlushHandle` without completing the flush: its `FreezeHandle`
is dropped, releasing the freeze lease. -/
def drop_handle (s : PersistenceWindows) : PersistenceWindows :=
  { s with frozen := false }

end PersistenceWindows

/-! ## Invariants -/

/-- Ordering between an older window `a` and a newer window `b` in the
oldest-to-newest chain: `a` stopped receiving writes before `b` started. -/
def wBefore (a b : Window) : Prop :=
  a.time_of_last_write ≤ b.time_of_first_write

instance (a b : Window) : Decidable (wBefore a b) :=
  inferInstanceAs (Decidable (_ ≤ _))

/-- Per-sequencer separation between an older window `a` and a newer window
`b`: any sequencer present in both has a strictly larger range in `b`. -/
def seqDisjoint (a b : Window) : Prop :=
  ∀ kv ∈ a.sequencer_numbers, ∀ kv' ∈ b.sequencer_numbers,
    kv.1 = kv'.1 → kv.2.max < kv'.2.min

instance (a b : Window) : Decidable (seqDisjoint a b) :=
  inferInstanceAs (Decidable (∀ kv ∈ _, ∀ kv' ∈ _, _))

/-- Per-window invariants. -/
def winInv (w : Window) : Prop :=
  w.time_of_first_write ≤ w.time_of_last_write ∧
  w.min_time ≤ w.max_time ∧
  0 < w.row_count ∧
  (∀ kv ∈ w.sequencer_numbers, kv.2.min ≤ kv.2.max) ∧
  SeqMap.keysSorted w.sequencer_numbers ∧
  w.max_time ≤ timeMax

instance (w : Window) : Decidable (winInv w) :=
  inferInstanceAs (Decidable (_ ∧ _))

/-- `n` is bounded by the value found in an optional lookup (which must
succeed). -/
def optBound (o : Option Nat) (n : Nat) : Prop :=
  match o with
  | some g => n ≤ g
  | none => False

instance (o : Option Nat) (n : Nat) : Decidable (optBound o n) :=
  match o with
  | some g => inferInstanceAs (Decidable (n ≤ g))
  | none => inferInstanceAs (Decidable False)

/-- Every sequencer range recorded in the window is dominated by the
partition-level `max_sequence_numbers` entry for that sequencer. -/
def seqBounded (w : Window) (m : List (Nat × Nat)) : Prop :=
  ∀ kv ∈ w.sequencer_numbers, optBound (SeqMap.lookup kv.1 m) kv.2.max

instance (w : Window) (m : List (Nat × Nat)) : Decidable (seqBounded w m) :=
  inferInstanceAs (Decidable (∀ kv ∈ _, _))

/-- The state invariant of a `PersistenceWindows`. -/
def SInv (s : PersistenceWindows) : Prop :=
  List.Pairwise wBefore s.windowsList ∧
  (∀ w ∈ s.windowsList, winInv w) ∧
  (∀ w ∈ s.windowsList, w.time_of_last_write ≤ s.time_of_last_write) ∧
  (∀ w ∈ s.windowsList, seqBounded w s.max_sequence_numbers) ∧
  List.Pairwise seqDisjoint s.windowsList ∧
  SeqMap.keysSorted s.max_sequence_numbers

instance (s : PersistenceWindows) : Decidable (SInv s) :=
  inferInstanceAs (Decidable (_ ∧ _))

/-- States reachable through the public interface. Clock readings are
universally quantified (the `TimeProvider` is not assumed monotone); the
argument constraints `0 < row_count` (a `NonZeroUsize`) and
`max_time ≤ timeMax` (a `Time`) are enforced by the Rust types. Each step
carrying an `= some _` hypothesis is an execution that did not panic. -/
inductive Reachable : PersistenceWindows → Prop
  | init (late_arrival_period : Nat) (now : Int) :
      Reachable (PersistenceWindows.new late_arrival_period now)
  | add_range (s s' : PersistenceWindows) (sequence : Option Sequence)
      (row_count : Nat) (min_time max_time now_write now_rotate : Int) :
      Reachable s → 0 < row_count → max_time ≤ timeMax →
      s.add_range sequence row_count min_time max_time now_write now_rotate = some s' →
      Reachable s'
  | rotate (s s' : PersistenceWindows) (now : Int) :
      Reachable s → s.rotate_impl now = some s' → Reachable s'
  | flush_handle (s s' : PersistenceWindows) (now : Int) (r : Option FlushHandle) :
      Reachable s → s.flush_handle_impl now = some (r, s') → Reachable s'
  | flush (s s' : PersistenceWindows) (h : FlushHandle) :
      Reachable s → s.flush h = some s' → Reachable s'
  | mark_seen (s : PersistenceWindows) (cp : PartitionCheckpoint) :
      Reachable s → Reachable (s.mark_seen_and_persisted cp)
  | set_late_arrival (s : PersistenceWindows) (late_arrival_period : Nat) :
      Reachable s → Reachable (s.set_late_arrival_period late_arrival_period)
  | drop_handle (s : PersistenceWindows) :
      Reachable s → Reachable s.drop_handle

/-! ## Concrete execution scenarios (used as witnesses and counterexamples) -/

/-- A throwaway default state for `Option.getD` projections. -/
def emptyState : PersistenceWindows := PersistenceWindows.new 0 0

/-- A throwaway default handle for `Option.getD` projections. -/
def emptyHandle : FlushHandle := { closed_count := 0, timestamp := 0, sequencer_numbers := [] }

/-- A checkpoint as replayed in the `test_mark_seen_and_persisted` unit test. -/
def c1_checkpoint : PartitionCheckpoint :=
  { sequencer_numbers := [(1, OptionalMinMaxSequence.mk (some 1) 2)]
    flush_timestamp := 260936036 }

/-- A state with no windows but a non-empty `max_sequence_numbers`. -/
def c1_state : PersistenceWindows :=
  (PersistenceWindows.new 100000000000 47069490749).mark_seen_and_persisted c1_checkpoint

/-- Ingest a row range with `max_time = Time::MAX`, acquire a flush handle,
record two more writes (producing a closed window that postdates the handle),
then complete the flush. Returns the pre-flush state, the handle and the
post-flush state. -/
def c2_run : Option (PersistenceWindows × FlushHandle × PersistenceWindows) :=
  ((PersistenceWindows.new 10 0).add_range (some ⟨1, 1⟩) 1 0 timeMax 0 0).bind fun s1 =>
  (s1.flush_handle_impl 20).bind fun r =>
  match r.1 with
  | none => none
  | some h =>
    (r.2.add_range (some ⟨1, 2⟩) 1 0 5 20 20).bind fun s3 =>
    (s3.add_range (some ⟨1, 3⟩) 1 0 5 40 40).bind fun s4 =>
    (s4.flush h).bind fun s5 => some (s4, h, s5)

def c2_pre : PersistenceWindows := (c2_run.map (fun x => x.1)).getD emptyState
def c2_h : FlushHandle := (c2_run.map (fun x => x.2.1)).getD emptyHandle
def c2_post : PersistenceWindows := (c2_run.map (fun x => x.2.2)).getD emptyState

/-- Two writes whose row ranges overlap, a flush handle and its completion:
the surviving closed window has its minimum row time truncated. -/
def c3_run : Option (PersistenceWindows × FlushHandle × PersistenceWindows) :=
  ((PersistenceWindows.new 10 0).add_range (some ⟨1, 1⟩) 2 0 10 0 0).bind fun s1 =>
  (s1.add_range (some ⟨1, 2⟩) 3 5 20 20 20).bind fun s2 =>
  (s2.flush_handle_impl 25).bind fun r =>
  match r.1 with
  | none => none
  | some h => (r.2.flush h).map fun s' => (r.2, h, s')

def c3_pre : PersistenceWindows := (c3_run.map (fun x => x.1)).getD emptyState
def c3_h : FlushHandle := (c3_run.map (fun x => x.2.1)).getD emptyHandle
def c3_post : PersistenceWindows := (c3_run.map (fun x => x.2.2)).getD emptyState

/-- A state reached by a single `add_range` call. -/
def c4_state : PersistenceWindows :=
  ((PersistenceWindows.new 10 0).add_range (some ⟨1, 1⟩) 1 0 5 0 0).getD emptyState

/-- Two rotation-spaced writes, the base state for a flush-handle acquisition. -/
def c6_base : PersistenceWindows :=
  (((PersistenceWindows.new 10 0).add_range (some ⟨1, 1⟩) 2 0 10 0 0).bind fun s1 =>
    s1.add_range (some ⟨1, 2⟩) 3 5 20 20 20).getD emptyState

def c6_rot : PersistenceWindows :=
  (({ c6_base with closed := c6_base.closed ++ c6_base.openW.toList, openW := none } : PersistenceWindows).rotate_impl 25).getD emptyState

def c6_res : Option FlushHandle × PersistenceWindows :=
  (c6_base.flush_handle_impl 25).getD (none, emptyState)

/-- The `test_regression_2206` scenario: two overlapping writes a full
late-arrival period apart. -/
def r9_s0 : PersistenceWindows :=
  (((PersistenceWindows.new 300000000000 47069490749).add_range (some ⟨1, 1⟩) 1 10 11
      47069490749 47069490749).bind fun s1 =>
    s1.add_range (some ⟨1, 4⟩) 1 10 11 347069490749 347069490749).getD emptyState

def r9_res : Option FlushHandle × PersistenceWindows :=
  (r9_s0.flush_handle_impl 347069490749).getD (none, emptyState)

def r9_h : FlushHandle := r9_res.1.getD emptyHandle

def r9_s1 : PersistenceWindows := r9_res.2

def r9_s3 : PersistenceWindows :=
  ((r9_s1.mark_seen_and_persisted r9_h.checkpoint).flush r9_h).getD emptyState

/-- A fresh open window that is not yet persistable. -/
def c10_base : PersistenceWindows :=
  ((PersistenceWindows.new 120000000000 0).add_range (some ⟨1, 1⟩) 1 0 5 0 0).getD emptyState

def c10_w : Window := c10_base.openW.getD (Window.new 0 none 0 0 0)

def c10_res : Option FlushHandle × PersistenceWindows :=
  (c10_base.flush_handle_impl 1).getD (none, emptyState)

/-- The open window of `c4_state`. -/
def c4_open : Window := c4_state.openW.getD (Window.new 0 none 0 0 0)

/-- The state left behind by the failing `flush_handle` call of `c10_res`. -/
def c10_s1 : PersistenceWindows := c10_res.2

/-- A subsequent write after the failing `flush_handle` call. -/
def c10_s2 : PersistenceWindows :=
  (c10_s1.add_range (some ⟨1, 2⟩) 1 0 5 2 2).getD emptyState

/-! ## Association-list lemmas -/

namespace SeqMap

theorem lookup_some_mem {l : List (Nat × α)} {k : Nat} {v : α}
    (h : lookup k l = some v) : (k, v) ∈ l := by
  induction l with
  | nil => simp [lookup] at h
  | cons kv rest ih =>
    obtain ⟨k', v'⟩ := kv
    simp only [lookup] at h
    split at h
    · next heq => cases h; subst heq; exact List.mem_cons_self _ _
    · exact List.mem_cons_of_mem _ (ih h)

theorem lookup_none_not_mem {l : List (Nat × α)} {k : Nat}
    (h : lookup k l = none) : ∀ v, (k, v) ∉ l := by
  induction l with
  | nil => simp
  | cons kv rest ih =>
    obtain ⟨k', v'⟩ := kv
    simp only [lookup] at h
    split at h
    · cases h
    · next hne =>
      intro v hv
      rcases List.mem_cons.mp hv with h1 | h1
      · cases h1; exact hne rfl
      · exact ih h v h1

theorem mem_lookup_sorted {l : List (Nat × α)} {k : Nat} {v : α}
    (hs : keysSorted l) (h : (k, v) ∈ l) : lookup k l = some v := by
  induction l with
  | nil => simp at h
  | cons kv rest ih =>
    obtain ⟨k', v'⟩ := kv
    simp only [keysSorted, List.pairwise_cons] at hs
    rcases List.mem_cons.mp h with h1 | h1
    · cases h1; simp [lookup]
    · have hk : k' < k := hs.1 _ h1
      have : k ≠ k' := by omega
      simp only [lookup, if_neg this]
      exact ih hs.2 h1

theorem mem_keys_insertWith {l : List (Nat × α)} {f : α → α} {k : Nat} {v : α}
    {a : Nat × α} (h : a ∈ insertWith f k v l) : a.1 = k ∨ a ∈ l := by
  induction l with
  | nil => simp [insertWith] at h; cases h; simp_all
  | cons kv rest ih =>
    obtain ⟨k', v'⟩ := kv
    simp only [insertWith] at h
    split at h
    · rcases List.mem_cons.mp h with h1 | h1
      · cases h1; left; rfl
      · right; exact h1
    · split at h
      · next heq =>
        rcases List.mem_cons.mp h with h1 | h1
        · cases h1; left; exact heq.symm
        · right; exact List.mem_cons_of_mem _ h1
      · rcases List.mem_cons.mp h with h1 | h1
        · right; cases h1; exact List.mem_cons_self _ _
        · rcases ih h1 with h2 | h2
          · left; exact h2
          · right; exact List.mem_cons_of_mem _ h2

theorem insertWith_sorted {l : List (Nat × α)} {f : α → α} {k : Nat} {v : α}
    (hs : keysSorted l) : keysSorted (insertWith f k v l) := by
  induction l with
  | nil => exact List.pairwise_singleton _ _
  | cons kv rest ih =>
    obtain ⟨k', v'⟩ := kv
    obtain ⟨hs1, hs2⟩ := List.pairwise_cons.mp hs
    simp only [insertWith]
    split
    · next hlt =>
      refine List.pairwise_cons.mpr ⟨?_, hs⟩
      intro a ha
      rcases List.mem_cons.mp ha with h1 | h1
      · cases h1; exact hlt
      · exact lt_trans hlt (hs1 _ h1)
    · split
      · next hne heq =>
        subst heq
        exact List.pairwise_cons.mpr ⟨hs1, hs2⟩
      · next hge hne =>
        refine List.pairwise_cons.mpr ⟨?_, ih hs2⟩
        intro a ha
        rcases mem_keys_insertWith ha with h1 | h1
        · rw [h1]; omega
        · exact hs1 _ h1

theorem lookup_insertWith_ne {l : List (Nat × α)} {f : α → α} {k k' : Nat} {v : α}
    (hne : k' ≠ k) : lookup k' (insertWith f k v l) = lookup k' l := by
  induction l with
  | nil => simp [insertWith, lookup, hne]
  | cons kv rest ih =>
    obtain ⟨k0, v0⟩ := kv
    simp only [insertWith]
    split
    · simp [lookup, hne]
    · split
      · next heq => subst heq; simp [lookup, hne]
      · simp only [lookup]
        split
        · rfl
        · exact ih

theorem mem_insertWith_sorted {l : List (Nat × α)} {f : α → α} {k : Nat} {v : α}
    {a : Nat × α} (hs : keysSorted l) (h : a ∈ insertWith f k v l) :
    (a ∈ l ∧ a.1 ≠ k) ∨ (lookup k l = none ∧ a = (k, v)) ∨
    (∃ v0, lookup k l = some v0 ∧ a = (k, f v0)) := by
  induction l with
  | nil =>
    simp only [insertWith, List.mem_singleton] at h
    right; left; exact ⟨rfl, h⟩
  | cons kv rest ih =>
    obtain ⟨k0, v0⟩ := kv
    simp only [keysSorted, List.pairwise_cons] at hs
    simp only [insertWith] at h
    split at h
    · next hlt =>
      -- inserted strictly before the head: key k is absent from the list
      have hnone : lookup k ((k0, v0) :: rest) = none := by
        cases hl : lookup k ((k0, v0) :: rest) with
        | none => rfl
        | some w =>
          have hm := lookup_some_mem hl
          rcases List.mem_cons.mp hm with h1 | h1
          · cases h1; omega
          · have := hs.1 _ h1; simp at this; omega
      rcases List.mem_cons.mp h with h1 | h1
      · right; left; exact ⟨hnone, h1⟩
      · left
        refine ⟨h1, ?_⟩
        intro hak
        have := lookup_none_not_mem hnone a.2
        rw [← hak] at this
        exact this (by simpa using h1)
    · split at h
      · next heq =>
        subst heq
        rcases List.mem_cons.mp h with h1 | h1
        · right; right
          exact ⟨v0, by simp [lookup], h1⟩
        · left
          refine ⟨List.mem_cons_of_mem _ h1, ?_⟩
          have := hs.1 _ h1
          omega
      · next hge hne =>
        rcases List.mem_cons.mp h with h1 | h1
        · left
          refine ⟨by cases h1; exact List.mem_cons_self _ _, ?_⟩
          cases h1; simpa using fun hh => hne hh.symm
        · have hl : lookup k ((k0, v0) :: rest) = lookup k rest := by
            simp only [lookup]
            rw [if_neg (by omega)]
          rcases ih hs.2 h1 with h2 | h2 | h2
          · exact Or.inl ⟨List.mem_cons_of_mem _ h2.1, h2.2⟩
          · right; left; rw [hl]; exact h2
          · right; right; rw [hl]; exact h2

end SeqMap

/-! ## Lemmas about the sequencer-map updates -/

namespace Window

theorem addSeq_spec {q : Sequence} {l r : List (Nat × MinMaxSequence)}
    (h : addSeq q l = some r) (hs : SeqMap.keysSorted l) :
    SeqMap.keysSorted r ∧
    ∀ kv ∈ r, kv ∈ l ∨
      (kv = (q.id, MinMaxSequence.mk q.number q.number) ∧ SeqMap.lookup q.id l = none) ∨
      (∃ n, SeqMap.lookup q.id l = some n ∧
        kv = (q.id, MinMaxSequence.mk n.min q.number) ∧ n.max < q.number) := by
  induction l generalizing r with
  | nil =>
    simp only [addSeq, Option.some.injEq] at h
    subst h
    refine ⟨List.pairwise_singleton _ _, ?_⟩
    intro kv hkv
    simp only [List.mem_singleton] at hkv
    exact Or.inr (Or.inl ⟨hkv, rfl⟩)
  | cons kv0 rest ih =>
    obtain ⟨k, n⟩ := kv0
    obtain ⟨hs1, hs2⟩ := List.pairwise_cons.mp hs
    simp only [addSeq] at h
    split at h
    · next hlt =>
      cases h
      have hnone : SeqMap.lookup q.id ((k, n) :: rest) = none := by
        cases hl : SeqMap.lookup q.id ((k, n) :: rest) with
        | none => rfl
        | some w =>
          have hm := SeqMap.lookup_some_mem hl
          rcases List.mem_cons.mp hm with h1 | h1
          · cases h1; omega
          · have := hs1 _ h1; simp at this; omega
      constructor
      · refine List.pairwise_cons.mpr ⟨?_, hs⟩
        intro a ha
        rcases List.mem_cons.mp ha with h1 | h1
        · cases h1; exact hlt
        · exact lt_trans hlt (hs1 _ h1)
      · intro kv hkv
        rcases List.mem_cons.mp hkv with h1 | h1
        · exact Or.inr (Or.inl ⟨h1, hnone⟩)
        · exact Or.inl h1
    · split at h
      · next hne heq =>
        split at h
        · next hmax =>
          cases h
          have hl : SeqMap.lookup q.id ((k, n) :: rest) = some n := by
            simp [SeqMap.lookup, heq]
          constructor
          · exact List.pairwise_cons.mpr ⟨hs1, hs2⟩
          · intro kv hkv
            rcases List.mem_cons.mp hkv with h1 | h1
            · subst h1
              exact Or.inr (Or.inr ⟨n, hl, by rw [heq], hmax⟩)
            · exact Or.inl (List.mem_cons_of_mem _ h1)
        · cases h
      · next hge hne =>
        have hkne : q.id ≠ k := fun hh => hne hh
        cases hrec : addSeq q rest with
        | none => rw [hrec] at h; cases h
        | some r' =>
          rw [hrec] at h
          simp only [Option.bind_eq_bind, Option.some_bind, Option.some.injEq] at h
          subst h
          obtain ⟨ihs, ihm⟩ := ih hrec hs2
          have hl : SeqMap.lookup q.id ((k, n) :: rest) = SeqMap.lookup q.id rest := by
            simp [SeqMap.lookup, hkne]
          constructor
          · refine List.pairwise_cons.mpr ⟨?_, ihs⟩
            intro a ha
            rcases ihm a ha with h1 | h1 | h1
            · exact hs1 _ h1
            · rw [h1.1]; simp; omega
            · obtain ⟨n0, _, hkv, _⟩ := h1; rw [hkv]; simp; omega
          · intro kv hkv
            rcases List.mem_cons.mp hkv with h1 | h1
            · exact Or.inl (by rw [h1]; exact List.mem_cons_self _ _)
            · rcases ihm kv h1 with h2 | h2 | h2
              · exact Or.inl (List.mem_cons_of_mem _ h2)
              · exact Or.inr (Or.inl ⟨h2.1, by rw [hl]; exact h2.2⟩)
              · obtain ⟨n0, hn0, hkv2, hlt2⟩ := h2
                exact Or.inr (Or.inr ⟨n0, by rw [hl]; exact hn0, hkv2, hlt2⟩)

theorem addSeq_total {q : Sequence} {l : List (Nat × MinMaxSequence)}
    (hok : ∀ n, SeqMap.lookup q.id l = some n → n.max < q.number) :
    ∃ r, addSeq q l = some r := by
  induction l with
  | nil => exact ⟨_, rfl⟩
  | cons kv0 rest ih =>
    obtain ⟨k, n⟩ := kv0
    simp only [addSeq]
    split
    · exact ⟨_, rfl⟩
    · split
      · next hne heq =>
        have : SeqMap.lookup q.id ((k, n) :: rest) = some n := by
          simp [SeqMap.lookup, heq]
        rw [if_pos (hok n this)]
        exact ⟨_, rfl⟩
      · next hge hne =>
        have hkne : q.id ≠ k := fun hh => hne hh
        obtain ⟨r, hr⟩ := ih (fun n0 h0 => hok n0 (by simpa [SeqMap.lookup, hkne] using h0))
        rw [hr]
        exact ⟨_, rfl⟩

end Window

namespace PersistenceWindows

theorem updateMaxSeq_spec {q : Sequence} {m m' : List (Nat × Nat)}
    (h : updateMaxSeq q m = some m') (hs : SeqMap.keysSorted m) :
    SeqMap.keysSorted m' ∧
    SeqMap.lookup q.id m' = some q.number ∧
    (∀ k g, SeqMap.lookup k m = some g → ∃ g', SeqMap.lookup k m' = some g' ∧ g ≤ g') ∧
    (∀ g, SeqMap.lookup q.id m = some g → g < q.number) := by
  induction m generalizing m' with
  | nil =>
    simp only [updateMaxSeq, Option.some.injEq] at h
    subst h
    refine ⟨List.pairwise_singleton _ _, by simp [SeqMap.lookup], ?_, ?_⟩
    · intro k g hg; simp [SeqMap.lookup] at hg
    · intro g hg; simp [SeqMap.lookup] at hg
  | cons kv0 rest ih =>
    obtain ⟨k0, v0⟩ := kv0
    obtain ⟨hs1, hs2⟩ := List.pairwise_cons.mp hs
    simp only [updateMaxSeq] at h
    split at h
    · next hlt =>
      cases h
      have hnone : SeqMap.lookup q.id ((k0, v0) :: rest) = none := by
        cases hl : SeqMap.lookup q.id ((k0, v0) :: rest) with
        | none => rfl
        | some w =>
          have hm := SeqMap.lookup_some_mem hl
          rcases List.mem_cons.mp hm with h1 | h1
          · cases h1; omega
          · have := hs1 _ h1; simp at this; omega
      refine ⟨?_, by simp [SeqMap.lookup], ?_, ?_⟩
      · refine List.pairwise_cons.mpr ⟨?_, hs⟩
        intro a ha
        rcases List.mem_cons.mp ha with h1 | h1
        · cases h1; exact hlt
        · exact lt_trans hlt (hs1 _ h1)
      · intro k g hg
        have hkq : k ≠ q.id := by
          intro hh; subst hh; rw [hg] at hnone; cases hnone
        exact ⟨g, by simpa [SeqMap.lookup, hkq] using hg, le_refl g⟩
      · intro g hg; rw [hg] at hnone; cases hnone
    · split at h
      · next hne heq =>
        split at h
        · next hmax =>
          cases h
          have hl : SeqMap.lookup q.id ((k0, v0) :: rest) = some v0 := by
            simp [SeqMap.lookup, heq]
          refine ⟨List.pairwise_cons.mpr ⟨hs1, hs2⟩, by simp [SeqMap.lookup, heq], ?_, ?_⟩
          · intro k g hg
            by_cases hk : k = k0
            · subst hk
              simp only [SeqMap.lookup, if_pos rfl] at hg ⊢
              cases hg
              exact ⟨q.number, rfl, le_of_lt hmax⟩
            · simp only [SeqMap.lookup, if_neg hk] at hg ⊢
              exact ⟨g, hg, le_refl g⟩
          · intro g hg
            rw [hl] at hg; cases hg; exact hmax
        · cases h
      · next hge hne =>
        have hkne : q.id ≠ k0 := fun hh => hne hh
        cases hrec : updateMaxSeq q rest with
        | none => rw [hrec] at h; cases h
        | some r' =>
          rw [hrec] at h
          simp only [Option.bind_eq_bind, Option.some_bind, Option.some.injEq] at h
          subst h
          obtain ⟨ihs, ihself, ihgrow, ihlt⟩ := ih hrec hs2
          refine ⟨?_, by simpa [SeqMap.lookup, hkne], ?_, ?_⟩
          · refine List.pairwise_cons.mpr ⟨?_, ihs⟩
            intro a ha
            -- every key of r' is either q.id or a key of rest
            have : a.1 = q.id ∨ a ∈ rest := by
              rcases updateMaxSeq_keys hrec a ha with h1 | h1
              · exact Or.inl h1
              · exact Or.inr h1
            rcases this with h1 | h1
            · omega
            · exact hs1 _ h1
          · intro k g hg
            by_cases hk : k = k0
            · subst hk
              simp only [SeqMap.lookup, if_pos rfl] at hg ⊢
              cases hg
              exact ⟨v0, rfl, le_refl v0⟩
            · simp only [SeqMap.lookup, if_neg hk] at hg ⊢
              exact ihgrow k g hg
          · intro g hg
            simp only [SeqMap.lookup, if_neg hkne] at hg
            exact ihlt g hg
where
  updateMaxSeq_keys {q : Sequence} {m m' : List (Nat × Nat)}
      (h : updateMaxSeq q m = some m') :
      ∀ a ∈ m', a.1 = q.id ∨ a ∈ m := by
    induction m generalizing m' with
    | nil =>
      simp only [updateMaxSeq, Option.some.injEq] at h
      subst h; intro a ha; simp only [List.mem_singleton] at ha; subst ha; left; rfl
    | cons kv0 rest ih =>
      obtain ⟨k0, v0⟩ := kv0
      simp only [updateMaxSeq] at h
      split at h
      · cases h
        intro a ha
        rcases List.mem_cons.mp ha with h1 | h1
        · subst h1; left; rfl
        · right; exact h1
      · split at h
        · next hne heq =>
          split at h
          · cases h
            intro a ha
            rcases List.mem_cons.mp ha with h1 | h1
            · subst h1; left; exact heq.symm
            · right; exact List.mem_cons_of_mem _ h1
          · cases h
        · cases hrec : updateMaxSeq q rest with
          | none => rw [hrec] at h; cases h
          | some r' =>
            rw [hrec] at h
            simp only [Option.bind_eq_bind, Option.some_bind, Option.some.injEq] at h
            subst h
            intro a ha
            rcases List.mem_cons.mp ha with h1 | h1
            · right; subst h1; exact List.mem_cons_self _ _
            · rcases ih hrec a h1 with h2 | h2
              · left; exact h2
              · right; exact List.mem_cons_of_mem _ h2

theorem updateMaxSeq_total {q : Sequence} {m : List (Nat × Nat)}
    (hok : ∀ g, SeqMap.lookup q.id m = some g → g < q.number) :
    ∃ m', updateMaxSeq q m = some m' := by
  induction m with
  | nil => exact ⟨_, rfl⟩
  | cons kv0 rest ih =>
    obtain ⟨k0, v0⟩ := kv0
    simp only [updateMaxSeq]
    split
    · exact ⟨_, rfl⟩
    · split
      · next hne heq =>
        have : SeqMap.lookup q.id ((k0, v0) :: rest) = some v0 := by
          simp [SeqMap.lookup, heq]
        rw [if_pos (hok v0 this)]
        exact ⟨_, rfl⟩
      · next hge hne =>
        have hkne : q.id ≠ k0 := fun hh => hne hh
        obtain ⟨r, hr⟩ := ih (fun g h0 => hok g (by simpa [SeqMap.lookup, hkne] using h0))
        rw [hr]
        exact ⟨_, rfl⟩

end PersistenceWindows

namespace Window

theorem mergeSeqs_spec :
    ∀ (other self : List (Nat × MinMaxSequence)),
    SeqMap.keysSorted self → SeqMap.keysSorted other →
    (∀ k n n', (k, n) ∈ self → (k, n') ∈ other → n.max < n'.min) →
    (∀ kv ∈ self, kv.2.min ≤ kv.2.max) → (∀ kv ∈ other, kv.2.min ≤ kv.2.max) →
    ∃ r, mergeSeqs self other = some r ∧ SeqMap.keysSorted r ∧
      ∀ kv ∈ r, kv ∈ self ∨ kv ∈ other ∨
        ∃ n n', (kv.1, n) ∈ self ∧ (kv.1, n') ∈ other ∧
          kv.2 = MinMaxSequence.mk n.min n'.max := by
  intro other
  induction other with
  | nil =>
    intro self hss _ _ _ _
    exact ⟨self, rfl, hss, fun kv hkv => Or.inl hkv⟩
  | cons kv0 rest ih =>
    intro self hss hso hdisj hmins hmino
    obtain ⟨k, n'⟩ := kv0
    obtain ⟨hso1, hso2⟩ := List.pairwise_cons.mp hso
    have hkrest : ∀ m', (k, m') ∈ rest → False := by
      intro m' hm'
      have := hso1 _ hm'
      simp at this
    simp only [mergeSeqs]
    cases hl : SeqMap.lookup k self with
    | some n =>
      dsimp only
      have hmem : (k, n) ∈ self := SeqMap.lookup_some_mem hl
      have hlt : n.max < n'.min := hdisj k n n' hmem (List.mem_cons_self _ _)
      have hn'mm : n'.min ≤ n'.max := hmino (k, n') (List.mem_cons_self _ _)
      have hmax : n.max < n'.max := lt_of_lt_of_le hlt hn'mm
      rw [if_pos hmax]
      set self' := SeqMap.insertWith
        (fun x => MinMaxSequence.mk x.min n'.max) k n' self with hself'
      have hss' : SeqMap.keysSorted self' := SeqMap.insertWith_sorted hss
      have hmem' : ∀ kv ∈ self',
          kv ∈ self ∨ kv = (k, MinMaxSequence.mk n.min n'.max) := by
        intro kv hkv
        rcases SeqMap.mem_insertWith_sorted hss hkv with h1 | h1 | h1
        · exact Or.inl h1.1
        · rw [h1.1] at hl; cases hl
        · obtain ⟨v0, hv0, hkv2⟩ := h1
          rw [hl] at hv0
          cases hv0
          exact Or.inr hkv2
      have hdisj' : ∀ k0 m m', (k0, m) ∈ self' → (k0, m') ∈ rest → m.max < m'.min := by
        intro k0 m m' hm hm'
        rcases hmem' (k0, m) hm with h1 | h1
        · exact hdisj k0 m m' h1 (List.mem_cons_of_mem _ hm')
        · have hk0 : k0 = k := congrArg Prod.fst h1
          subst hk0
          exact absurd hm' (fun hh => hkrest m' hh)
      have hmins' : ∀ kv ∈ self', kv.2.min ≤ kv.2.max := by
        intro kv hkv
        rcases hmem' kv hkv with h1 | h1
        · exact hmins kv h1
        · rw [h1]
          have h2 := hmins _ hmem
          simp only at h2 ⊢
          omega
      obtain ⟨r, hr, hrs, hrm⟩ := ih self' hss' hso2 hdisj' hmins'
        (fun kv hkv => hmino kv (List.mem_cons_of_mem _ hkv))
      refine ⟨r, hr, hrs, ?_⟩
      intro kv hkv
      rcases hrm kv hkv with h1 | h1 | h1
      · rcases hmem' kv h1 with h2 | h2
        · exact Or.inl h2
        · subst h2
          exact Or.inr (Or.inr ⟨n, n', hmem, List.mem_cons_self _ _, rfl⟩)
      · exact Or.inr (Or.inl (List.mem_cons_of_mem _ h1))
      · obtain ⟨m, m', hm, hm', hv⟩ := h1
        rcases hmem' (kv.1, m) hm with h2 | h2
        · exact Or.inr (Or.inr ⟨m, m', h2, List.mem_cons_of_mem _ hm', hv⟩)
        · have hk : kv.1 = k := congrArg Prod.fst h2
          rw [hk] at hm'
          exact absurd hm' (fun hh => hkrest m' hh)
    | none =>
      dsimp only
      set self' := SeqMap.insertWith (fun x => x) k n' self with hself'
      have hss' : SeqMap.keysSorted self' := SeqMap.insertWith_sorted hss
      have hmem' : ∀ kv ∈ self', kv ∈ self ∨ kv = (k, n') := by
        intro kv hkv
        rcases SeqMap.mem_insertWith_sorted hss hkv with h1 | h1 | h1
        · exact Or.inl h1.1
        · exact Or.inr h1.2
        · obtain ⟨v0, hv0, -⟩ := h1
          rw [hl] at hv0; cases hv0
      have hdisj' : ∀ k0 m m', (k0, m) ∈ self' → (k0, m') ∈ rest → m.max < m'.min := by
        intro k0 m m' hm hm'
        rcases hmem' (k0, m) hm with h1 | h1
        · exact hdisj k0 m m' h1 (List.mem_cons_of_mem _ hm')
        · have hk0 : k0 = k := congrArg Prod.fst h1
          subst hk0
          exact absurd hm' (fun hh => hkrest m' hh)
      have hmins' : ∀ kv ∈ self', kv.2.min ≤ kv.2.max := by
        intro kv hkv
        rcases hmem' kv hkv with h1 | h1
        · exact hmins kv h1
        · rw [h1]; exact hmino (k, n') (List.mem_cons_self _ _)
      obtain ⟨r, hr, hrs, hrm⟩ := ih self' hss' hso2 hdisj' hmins'
        (fun kv hkv => hmino kv (List.mem_cons_of_mem _ hkv))
      refine ⟨r, hr, hrs, ?_⟩
      intro kv hkv
      rcases hrm kv hkv with h1 | h1 | h1
      · rcases hmem' kv h1 with h2 | h2
        · exact Or.inl h2
        · exact Or.inr (Or.inl (by rw [h2]; exact List.mem_cons_self _ _))
      · exact Or.inr (Or.inl (List.mem_cons_of_mem _ h1))
      · obtain ⟨m, m', hm, hm', hv⟩ := h1
        rcases hmem' (kv.1, m) hm with h2 | h2
        · exact Or.inr (Or.inr ⟨m, m', h2, List.mem_cons_of_mem _ hm', hv⟩)
        · have hk : kv.1 = k := congrArg Prod.fst h2
          rw [hk] at hm'
          exact absurd hm' (fun hh => hkrest m' hh)

end Window

/-! ## Window-level lemmas -/

theorem add_window_spec {w o : Window} (hw : winInv w) (ho : winInv o)
    (hb : wBefore w o) (hd : seqDisjoint w o) :
    ∃ m, w.add_window o = some m ∧ winInv m ∧
      m.time_of_first_write = w.time_of_first_write ∧
      m.time_of_last_write = o.time_of_last_write ∧
      m.row_count = w.row_count + o.row_count ∧
      m.min_time = min w.min_time o.min_time ∧
      m.max_time = max w.max_time o.max_time ∧
      ∀ kv ∈ m.sequencer_numbers,
        kv ∈ w.sequencer_numbers ∨ kv ∈ o.sequencer_numbers ∨
        ∃ n n', (kv.1, n) ∈ w.sequencer_numbers ∧ (kv.1, n') ∈ o.sequencer_numbers ∧
          kv.2 = MinMaxSequence.mk n.min n'.max := by
  obtain ⟨hw1, hw2, hw3, hw4, hw5, hw6⟩ := hw
  obtain ⟨ho1, ho2, ho3, ho4, ho5, ho6⟩ := ho
  obtain ⟨r, hr, hrs, hrm⟩ := Window.mergeSeqs_spec o.sequencer_numbers
    w.sequencer_numbers hw5 ho5
    (fun k n n' hn hn' => hd (k, n) hn (k, n') hn' rfl) hw4 ho4
  have hguard : w.time_of_last_write ≤ o.time_of_first_write ∧
      w.time_of_last_write ≤ o.time_of_last_write := ⟨hb, le_trans hb ho1⟩
  refine ⟨{ w with
      time_of_last_write := o.time_of_last_write
      row_count := w.row_count + o.row_count
      min_time := min w.min_time o.min_time
      max_time := max w.max_time o.max_time
      sequencer_numbers := r }, ?_, ?_, rfl, rfl, rfl, rfl, rfl, ?_⟩
  · rw [Window.add_window, if_pos hguard, hr]
    rfl
  · refine ⟨le_trans hw1 (le_trans hb ho1), ?_, ?_, ?_, hrs, ?_⟩
    · simp only
      omega
    · simp only
      omega
    · intro kv hkv
      rcases hrm kv hkv with h1 | h1 | h1
      · exact hw4 kv h1
      · exact ho4 kv h1
      · obtain ⟨n, n', hn, hn', hv⟩ := h1
        have h2 := hw4 _ hn
        have h3 := ho4 _ hn'
        have h4 := hd _ hn _ hn' rfl
        rw [hv]
        simp only at h2 h3 h4 ⊢
        omega
    · simp only
      omega
  · intro kv hkv
    exact hrm kv hkv

/-- A merged window keeps the sequencer-separation relation to any window
both of its parts were separated from. -/
theorem add_window_seqDisjoint {w o m x : Window}
    (hchar : ∀ kv ∈ m.sequencer_numbers,
      kv ∈ w.sequencer_numbers ∨ kv ∈ o.sequencer_numbers ∨
      ∃ n n', (kv.1, n) ∈ w.sequencer_numbers ∧ (kv.1, n') ∈ o.sequencer_numbers ∧
        kv.2 = MinMaxSequence.mk n.min n'.max)
    (hwx : seqDisjoint w x) (hox : seqDisjoint o x) : seqDisjoint m x := by
  intro kv hkv kv' hkv' hk
  rcases hchar kv hkv with h1 | h1 | h1
  · exact hwx kv h1 kv' hkv' hk
  · exact hox kv h1 kv' hkv' hk
  · obtain ⟨n, n', _, hn', hv⟩ := h1
    have := hox (kv.1, n') hn' kv' hkv' hk
    rw [hv]
    simp only at this ⊢
    exact this

/-! ## The rotate loop -/

namespace PersistenceWindows

theorem rotateLoop_spec (P : Window → Prop)
    (hP : ∀ a b m : Window, a.add_window b = some m →
      (∀ kv ∈ m.sequencer_numbers,
        kv ∈ a.sequencer_numbers ∨ kv ∈ b.sequencer_numbers ∨
        ∃ n n', (kv.1, n) ∈ a.sequencer_numbers ∧ (kv.1, n') ∈ b.sequencer_numbers ∧
          kv.2 = MinMaxSequence.mk n.min n'.max) →
      m.time_of_last_write = b.time_of_last_write → P a → P b → P m) :
    ∀ (closed : List Window) (pOpt : Option Window) (suffix : List Window)
      (now : Int) (lap : Nat),
    List.Pairwise wBefore (pOpt.toList ++ closed ++ suffix) →
    (∀ w ∈ pOpt.toList ++ closed ++ suffix, winInv w) →
    List.Pairwise seqDisjoint (pOpt.toList ++ closed ++ suffix) →
    (∀ w ∈ pOpt.toList ++ closed, P w) →
    ∃ pc, rotateLoop pOpt closed now lap = some pc ∧
      List.Pairwise wBefore (pc.1.toList ++ pc.2 ++ suffix) ∧
      (∀ w ∈ pc.1.toList ++ pc.2 ++ suffix, winInv w) ∧
      List.Pairwise seqDisjoint (pc.1.toList ++ pc.2 ++ suffix) ∧
      (∀ w ∈ pc.1.toList ++ pc.2, P w) ∧
      (pc.1 = none → pOpt = none ∧ pc.2 = closed) := by
  intro closed
  induction closed with
  | nil =>
    intro pOpt suffix now lap h1 h2 h3 h4
    exact ⟨(pOpt, []), rfl, h1, h2, h3, h4, fun h => ⟨h, rfl⟩⟩
  | cons w rest ih =>
    intro pOpt suffix now lap h1 h2 h3 h4
    simp only [rotateLoop]
    by_cases hp : w.is_persistable now lap
    · rw [if_pos hp]
      cases pOpt with
      | none =>
        simp only [Option.toList_none, List.nil_append] at h1 h2 h3 h4
        have h1' : List.Pairwise wBefore ((some w).toList ++ rest ++ suffix) := by
          simpa using h1
        have h2' : ∀ x ∈ (some w).toList ++ rest ++ suffix, winInv x := by
          simpa using h2
        have h3' : List.Pairwise seqDisjoint ((some w).toList ++ rest ++ suffix) := by
          simpa using h3
        have h4' : ∀ x ∈ (some w).toList ++ rest, P x := by
          intro x hx
          apply h4
          simpa using hx
        obtain ⟨pc, hpc, c1, c2, c3, c4, c5⟩ := ih (some w) suffix now lap h1' h2' h3' h4'
        refine ⟨pc, hpc, c1, c2, c3, c4, ?_⟩
        intro hnone
        exact absurd (c5 hnone).1 (by simp)
      | some p =>
        simp only [Option.toList_some] at h1 h2 h3 h4
        have hwp : winInv p := h2 p (by simp)
        have hww : winInv w := h2 w (by simp)
        have hbpw : wBefore p w := by
          have := List.pairwise_cons.mp h1
          exact this.1 w (by simp)
        have hdpw : seqDisjoint p w := by
          have := List.pairwise_cons.mp h3
          exact this.1 w (by simp)
        obtain ⟨m, hm, hmi, hmf, hml, -, -, hmx, hmc⟩ :=
          add_window_spec hwp hww hbpw hdpw
        dsimp only
        rw [hm]
        -- set up the inductive call with persistable := m
        have hrest1 : List.Pairwise wBefore ((some m).toList ++ rest ++ suffix) := by
          simp only [Option.toList_some, List.cons_append, List.pairwise_cons] at h1 ⊢
          obtain ⟨hp1, hw1⟩ := h1
          obtain ⟨hw2, hw3⟩ := List.pairwise_cons.mp hw1
          refine ⟨?_, hw3⟩
          intro x hx
          rw [wBefore, hml]
          exact hw2 x hx
        have hrest2 : ∀ x ∈ (some m).toList ++ rest ++ suffix, winInv x := by
          intro x hx
          simp only [Option.toList_some, List.cons_append, List.mem_cons] at hx
          rcases hx with hx | hx
          · exact hx ▸ hmi
          · exact h2 x (by simp at hx ⊢; tauto)
        have hrest3 : List.Pairwise seqDisjoint ((some m).toList ++ rest ++ suffix) := by
          simp only [Option.toList_some, List.cons_append, List.pairwise_cons] at h3 ⊢
          obtain ⟨hp3, hw31⟩ := h3
          obtain ⟨hw32, hw33⟩ := List.pairwise_cons.mp hw31
          refine ⟨?_, hw33⟩
          intro x hx
          refine add_window_seqDisjoint hmc (hp3 x ?_) (hw32 x hx)
          simp at hx ⊢
          tauto
        have hrest4 : ∀ x ∈ (some m).toList ++ rest, P x := by
          intro x hx
          simp only [Option.toList_some, List.mem_cons, List.cons_append] at hx
          rcases hx with hx | hx
          · exact hx ▸ hP p w m (by rw [hm]) hmc hml (h4 p (by simp)) (h4 w (by simp))
          · exact h4 x (by simp at hx ⊢; tauto)
        obtain ⟨pc, hpc, c1, c2, c3, c4, c5⟩ := ih (some m) suffix now lap
          hrest1 hrest2 hrest3 hrest4
        refine ⟨pc, hpc, c1, c2, c3, c4, ?_⟩
        intro hnone
        exact absurd (c5 hnone).1 (by simp)
    · rw [if_neg hp]
      exact ⟨(pOpt, w :: rest), rfl, h1, h2, h3, h4, fun h => ⟨h, rfl⟩⟩

end PersistenceWindows

namespace PersistenceWindows

theorem windowsList_move (s : PersistenceWindows) :
    windowsList { s with closed := s.closed ++ s.openW.toList, openW := none } =
      windowsList s := by
  simp [windowsList, List.append_assoc]

theorem rotate_impl_eq_move_frozen (s : PersistenceWindows) (now : Int)
    (hdo : (match s.openW with
      | some w => w.is_closeable now s.closed_window_period
      | none => false) = true) (hfz : s.frozen = true) :
    s.rotate_impl now =
      some { s with closed := s.closed ++ s.openW.toList, openW := none } := by
  simp only [rotate_impl]
  rw [if_pos hdo]
  dsimp only
  rw [if_pos hfz]

theorem rotate_impl_eq_move_unfrozen (s : PersistenceWindows) (now : Int)
    (hdo : (match s.openW with
      | some w => w.is_closeable now s.closed_window_period
      | none => false) = true) (hfz : ¬ s.frozen = true) :
    s.rotate_impl now =
      (rotateLoop s.persistable (s.closed ++ s.openW.toList) now
        s.late_arrival_period).map fun pc =>
        { s with persistable := pc.1, closed := pc.2, openW := none } := by
  simp only [rotate_impl]
  rw [if_pos hdo]
  dsimp only
  rw [if_neg hfz]

theorem rotate_impl_eq_stay_frozen (s : PersistenceWindows) (now : Int)
    (hdo : ¬ (match s.openW with
      | some w => w.is_closeable now s.closed_window_period
      | none => false) = true) (hfz : s.frozen = true) :
    s.rotate_impl now = some s := by
  simp only [rotate_impl]
  rw [if_neg hdo]
  rw [if_pos hfz]

theorem rotate_impl_eq_stay_unfrozen (s : PersistenceWindows) (now : Int)
    (hdo : ¬ (match s.openW with
      | some w => w.is_closeable now s.closed_window_period
      | none => false) = true) (hfz : ¬ s.frozen = true) :
    s.rotate_impl now =
      (rotateLoop s.persistable s.closed now s.late_arrival_period).map fun pc =>
        { s with persistable := pc.1, closed := pc.2 } := by
  simp only [rotate_impl]
  rw [if_neg hdo]
  rw [if_neg hfz]

theorem rotate_impl_spec (P : Window → Prop)
    (hP : ∀ a b m : Window, a.add_window b = some m →
      (∀ kv ∈ m.sequencer_numbers,
        kv ∈ a.sequencer_numbers ∨ kv ∈ b.sequencer_numbers ∨
        ∃ n n', (kv.1, n) ∈ a.sequencer_numbers ∧ (kv.1, n') ∈ b.sequencer_numbers ∧
          kv.2 = MinMaxSequence.mk n.min n'.max) →
      m.time_of_last_write = b.time_of_last_write → P a → P b → P m)
    (s : PersistenceWindows) (now : Int)
    (h1 : List.Pairwise wBefore s.windowsList)
    (h2 : ∀ w ∈ s.windowsList, winInv w)
    (h3 : List.Pairwise seqDisjoint s.windowsList)
    (h4 : ∀ w ∈ s.windowsList, P w) :
    ∃ s', s.rotate_impl now = some s' ∧
      List.Pairwise wBefore s'.windowsList ∧
      (∀ w ∈ s'.windowsList, winInv w) ∧
      List.Pairwise seqDisjoint s'.windowsList ∧
      (∀ w ∈ s'.windowsList, P w) ∧
      s'.frozen = s.frozen ∧
      s'.time_of_last_write = s.time_of_last_write ∧
      s'.max_sequence_numbers = s.max_sequence_numbers ∧
      s'.late_arrival_period = s.late_arrival_period ∧
      s'.closed_window_period = s.closed_window_period ∧
      (∀ w, s'.openW = some w → s.openW = some w) := by
  have hall : ∀ w ∈ s.persistable.toList ++ (s.closed ++ s.openW.toList) ++ [],
      winInv w := by
    intro w hw
    apply h2
    simp only [windowsList]
    simp only [List.append_nil, List.append_assoc] at hw ⊢
    exact hw
  have hall1 : List.Pairwise wBefore
      (s.persistable.toList ++ (s.closed ++ s.openW.toList) ++ []) := by
    simp only [List.append_nil, List.append_assoc]
    simpa only [windowsList, List.append_assoc] using h1
  have hall3 : List.Pairwise seqDisjoint
      (s.persistable.toList ++ (s.closed ++ s.openW.toList) ++ []) := by
    simp only [List.append_nil, List.append_assoc]
    simpa only [windowsList, List.append_assoc] using h3
  have hall4 : ∀ w ∈ s.persistable.toList ++ (s.closed ++ s.openW.toList), P w := by
    intro w hw
    apply h4
    simp only [windowsList]
    simp only [List.append_assoc] at hw ⊢
    exact hw
  have hsplit1 : List.Pairwise wBefore
      (s.persistable.toList ++ s.closed ++ s.openW.toList) := by
    simpa only [windowsList] using h1
  have hsplit3 : List.Pairwise seqDisjoint
      (s.persistable.toList ++ s.closed ++ s.openW.toList) := by
    simpa only [windowsList] using h3
  have hsplit4 : ∀ w ∈ s.persistable.toList ++ s.closed, P w := by
    intro w hw
    apply h4
    simp only [windowsList, List.mem_append] at hw ⊢
    tauto
  by_cases hdo : (match s.openW with
      | some w => w.is_closeable now s.closed_window_period
      | none => false) = true
  · by_cases hfz : s.frozen = true
    · rw [rotate_impl_eq_move_frozen s now hdo hfz]
      refine ⟨_, rfl, ?_, ?_, ?_, ?_, rfl, rfl, rfl, rfl, rfl, by simp⟩
      · rw [windowsList_move s]; exact h1
      · rw [windowsList_move s]; exact h2
      · rw [windowsList_move s]; exact h3
      · rw [windowsList_move s]; exact h4
    · rw [rotate_impl_eq_move_unfrozen s now hdo hfz]
      obtain ⟨pc, hpc, c1, c2, c3, c4, -⟩ := rotateLoop_spec P hP
        (s.closed ++ s.openW.toList) s.persistable [] now
        s.late_arrival_period hall1 hall hall3 hall4
      rw [hpc]
      refine ⟨_, rfl, ?_, ?_, ?_, ?_, rfl, rfl, rfl, rfl, rfl, by simp⟩
      · simpa [windowsList] using c1
      · simpa [windowsList] using c2
      · simpa [windowsList] using c3
      · intro w hw
        apply c4
        simpa [windowsList] using hw
  · by_cases hfz : s.frozen = true
    · rw [rotate_impl_eq_stay_frozen s now hdo hfz]
      exact ⟨s, rfl, h1, h2, h3, h4, rfl, rfl, rfl, rfl, rfl, fun w hw => hw⟩
    · rw [rotate_impl_eq_stay_unfrozen s now hdo hfz]
      obtain ⟨pc, hpc, c1, c2, c3, c4, -⟩ := rotateLoop_spec P hP
        s.closed s.persistable s.openW.toList now
        s.late_arrival_period hsplit1 h2 hsplit3 hsplit4
      rw [hpc]
      refine ⟨_, rfl, ?_, ?_, ?_, ?_, rfl, rfl, rfl, rfl, rfl, fun w hw => hw⟩
      · simpa [windowsList] using c1
      · simpa [windowsList] using c2
      · simpa [windowsList] using c3
      · intro w hw
        simp only [windowsList, List.mem_append] at hw
        rcases hw with (hw | hw) | hw
        · exact c4 w (by simp [hw])
        · exact c4 w (by simp [hw])
        · apply h4
          simp only [windowsList, List.mem_append]
          tauto

end PersistenceWindows

theorem pairwise_append_one {R : Window → Window → Prop} {l : List Window} {a : Window} :
    List.Pairwise R (l ++ [a]) ↔ List.Pairwise R l ∧ ∀ x ∈ l, R x a := by
  rw [List.pairwise_append]
  simp

theorem seqBounded_mono {w : Window} {old new : List (Nat × Nat)}
    (hb : seqBounded w old)
    (hgrow : ∀ k g, SeqMap.lookup k old = some g →
      ∃ g', SeqMap.lookup k new = some g' ∧ g ≤ g') : seqBounded w new := by
  intro kv hkv
  have h1 := hb kv hkv
  cases hl : SeqMap.lookup kv.1 old with
  | none =>
    rw [hl] at h1
    simp only [optBound] at h1
  | some g =>
    rw [hl] at h1
    simp only [optBound] at h1
    obtain ⟨g', hg', hle⟩ := hgrow kv.1 g hl
    simp only [optBound, hg']
    omega

namespace PersistenceWindows

theorem windowsList_open_some {t : PersistenceWindows} {w : Window}
    (h : t.openW = some w) :
    t.windowsList = (t.persistable.toList ++ t.closed) ++ [w] := by
  simp [windowsList, h, List.append_assoc]

theorem windowsList_set_open (t : PersistenceWindows) (w : Window) :
    windowsList { t with openW := some w } =
      (t.persistable.toList ++ t.closed) ++ [w] := by
  simp [windowsList, List.append_assoc]

theorem add_open_spec (t : PersistenceWindows) (sequence : Option Sequence)
    (rc : Nat) (mint maxt tow : Int) (oldmax : List (Nat × Nat))
    (h1 : List.Pairwise wBefore t.windowsList)
    (h2 : ∀ w ∈ t.windowsList, winInv w)
    (h3 : List.Pairwise seqDisjoint t.windowsList)
    (h4 : ∀ w ∈ t.windowsList, w.time_of_last_write ≤ tow ∧ seqBounded w oldmax)
    (hgrow : ∀ k g, SeqMap.lookup k oldmax = some g →
      ∃ g', SeqMap.lookup k t.max_sequence_numbers = some g' ∧ g ≤ g')
    (hself : ∀ q, sequence = some q →
      SeqMap.lookup q.id t.max_sequence_numbers = some q.number)
    (hfresh : ∀ q, sequence = some q →
      ∀ g, SeqMap.lookup q.id oldmax = some g → g < q.number)
    (hsorted : SeqMap.keysSorted t.max_sequence_numbers)
    (htolw : t.time_of_last_write = tow)
    (hrc : 0 < rc) (hmm : mint ≤ maxt) (hmax : maxt ≤ timeMax) :
    ∃ s', (match t.openW with
        | some w =>
          (w.add_range sequence rc mint maxt tow).map fun w' =>
            { t with openW := some w' }
        | none =>
          some { t with openW := some (Window.new tow sequence rc mint maxt) }) =
        some s' ∧
      SInv s' ∧ s'.time_of_last_write = t.time_of_last_write ∧
      s'.max_sequence_numbers = t.max_sequence_numbers ∧
      s'.frozen = t.frozen := by
  -- an old window's sequencer entry for `q.id` is strictly below `q.number`
  have hxlt : ∀ q, sequence = some q → ∀ x ∈ t.windowsList,
      ∀ nx, (q.id, nx) ∈ x.sequencer_numbers → nx.max < q.number := by
    intro q hq x hx nx hnx
    have hbx := (h4 x hx).2 (q.id, nx) hnx
    cases hl : SeqMap.lookup q.id oldmax with
    | none =>
      rw [hl] at hbx
      simp only [optBound] at hbx
    | some g =>
      rw [hl] at hbx
      simp only [optBound] at hbx
      have := hfresh q hq g hl
      omega
  cases hopen : t.openW with
  | none =>
    set newW := Window.new tow sequence rc mint maxt with hnw
    have hnwchar : ∀ kv ∈ newW.sequencer_numbers,
        ∃ q, sequence = some q ∧ kv = (q.id, MinMaxSequence.mk q.number q.number) := by
      intro kv hkv
      cases hsq : sequence with
      | none => rw [hnw] at hkv; simp [Window.new, hsq] at hkv
      | some q =>
        rw [hnw] at hkv
        simp only [Window.new, hsq, List.mem_singleton] at hkv
        exact ⟨q, rfl, hkv⟩
    have hwl : t.windowsList = t.persistable.toList ++ t.closed ++ [] := by
      simp [windowsList, hopen]
    refine ⟨_, rfl, ?_, rfl, rfl, rfl⟩
    rw [SInv, windowsList_set_open]
    have hpre1 : List.Pairwise wBefore (t.persistable.toList ++ t.closed) := by
      rw [hwl] at h1; simpa using h1
    have hpre2 : ∀ w ∈ t.persistable.toList ++ t.closed, winInv w := by
      intro w hw; apply h2; rw [hwl]; simpa using hw
    have hpre3 : List.Pairwise seqDisjoint (t.persistable.toList ++ t.closed) := by
      rw [hwl] at h3; simpa using h3
    have hpre4 : ∀ w ∈ t.persistable.toList ++ t.closed,
        w.time_of_last_write ≤ tow ∧ seqBounded w oldmax := by
      intro w hw; apply h4; rw [hwl]; simpa using hw
    have hpremem : ∀ w ∈ t.persistable.toList ++ t.closed, w ∈ t.windowsList := by
      intro w hw; rw [hwl]; simpa using hw
    refine ⟨?_, ?_, ?_, ?_, ?_, hsorted⟩
    · rw [pairwise_append_one]
      refine ⟨hpre1, ?_⟩
      intro x hx
      rw [wBefore, hnw]
      show x.time_of_last_write ≤ tow
      exact (hpre4 x hx).1
    · intro w hw
      rcases List.mem_append.mp hw with hw | hw
      · exact hpre2 w hw
      · rw [List.mem_singleton] at hw
        subst hw
        refine ⟨le_refl _, hmm, hrc, ?_, ?_, hmax⟩
        · intro kv hkv
          obtain ⟨q, -, hkv⟩ := hnwchar kv hkv
          rw [hkv]
        · cases hsq : sequence with
          | none => rw [hnw]; simp [Window.new, hsq, SeqMap.keysSorted]
          | some q =>
            rw [hnw]
            simp only [Window.new, hsq]
            exact List.pairwise_singleton _ _
    · intro w hw
      rcases List.mem_append.mp hw with hw | hw
      · calc w.time_of_last_write ≤ tow := (hpre4 w hw).1
        _ = _ := htolw.symm
      · rw [List.mem_singleton] at hw
        subst hw
        rw [hnw]
        show tow ≤ _
        rw [htolw]
    · intro w hw
      rcases List.mem_append.mp hw with hw | hw
      · exact seqBounded_mono (hpre4 w hw).2 hgrow
      · rw [List.mem_singleton] at hw
        subst hw
        intro kv hkv
        obtain ⟨q, hq, hkv⟩ := hnwchar kv hkv
        rw [hkv]
        have hs := hself q hq
        simp [optBound, hs]
    · rw [pairwise_append_one]
      refine ⟨hpre3, ?_⟩
      intro x hx kv hkv kv' hkv' hk
      obtain ⟨q, hq, hkv'⟩ := hnwchar kv' hkv'
      have hk2 : kv.1 = q.id := by rw [hk, hkv']
      have := hxlt q hq x (hpremem x hx) kv.2 (by rw [← hk2]; exact hkv)
      rw [hkv']
      simpa using this
  | some w =>
    have hwl : t.windowsList = (t.persistable.toList ++ t.closed) ++ [w] :=
      windowsList_open_some hopen
    have hwin : winInv w := h2 w (by rw [hwl]; simp)
    obtain ⟨hw1, hw2, hw3, hw4, hw5, hw6⟩ := hwin
    have hwtol : w.time_of_last_write ≤ tow := (h4 w (by rw [hwl]; simp)).1
    have hwtof : w.time_of_first_write ≤ tow := le_trans hw1 hwtol
    -- the sequencer-map update succeeds and is characterized
    have hstep : ∃ seqs, (match sequence with
        | some q => Window.addSeq q w.sequencer_numbers
        | none => some w.sequencer_numbers) = some seqs ∧
        SeqMap.keysSorted seqs ∧
        ∀ kv ∈ seqs, kv ∈ w.sequencer_numbers ∨
          ∃ q, sequence = some q ∧ kv.1 = q.id ∧ kv.2.max = q.number ∧
            (kv.2.min = q.number ∨
             ∃ n, (q.id, n) ∈ w.sequencer_numbers ∧ kv.2.min = n.min ∧
               n.max < q.number) := by
      cases hsq : sequence with
      | none => exact ⟨w.sequencer_numbers, rfl, hw5, fun kv hkv => Or.inl hkv⟩
      | some q =>
        have htot : ∀ n, SeqMap.lookup q.id w.sequencer_numbers = some n →
            n.max < q.number := by
          intro n hn
          exact hxlt q hsq w (by rw [hwl]; simp) n (SeqMap.lookup_some_mem hn)
        obtain ⟨r, hr⟩ := Window.addSeq_total htot
        obtain ⟨hrs, hrm⟩ := Window.addSeq_spec hr hw5
        refine ⟨r, hr, hrs, ?_⟩
        intro kv hkv
        rcases hrm kv hkv with hc | hc | hc
        · exact Or.inl hc
        · refine Or.inr ⟨q, rfl, ?_, ?_, Or.inl ?_⟩ <;> rw [hc.1]
        · obtain ⟨n, hn, hkv2, hlt⟩ := hc
          refine Or.inr ⟨q, rfl, ?_, ?_,
            Or.inr ⟨n, SeqMap.lookup_some_mem hn, ?_, hlt⟩⟩ <;> rw [hkv2]
    obtain ⟨seqs, hseqs, hss, hchar⟩ := hstep
    set w' : Window :=
      { w with
        time_of_last_write := tow
        row_count := w.row_count + rc
        min_time := min w.min_time mint
        max_time := max w.max_time maxt
        sequencer_numbers := seqs } with hw'
    have hadd : w.add_range sequence rc mint maxt tow = some w' := by
      simp only [Window.add_range]
      rw [if_pos ⟨hwtof, hwtol⟩, hseqs]
      rfl
    dsimp only
    rw [hadd]
    have hpre1 : List.Pairwise wBefore (t.persistable.toList ++ t.closed) := by
      rw [hwl, pairwise_append_one] at h1; exact h1.1
    have hpre1w : ∀ x ∈ t.persistable.toList ++ t.closed, wBefore x w := by
      rw [hwl, pairwise_append_one] at h1; exact h1.2
    have hpre3 : List.Pairwise seqDisjoint (t.persistable.toList ++ t.closed) := by
      rw [hwl, pairwise_append_one] at h3; exact h3.1
    have hpre3w : ∀ x ∈ t.persistable.toList ++ t.closed, seqDisjoint x w := by
      rw [hwl, pairwise_append_one] at h3; exact h3.2
    have hpremem : ∀ x ∈ t.persistable.toList ++ t.closed, x ∈ t.windowsList := by
      intro x hx
      rw [hwl]
      simp only [List.mem_append] at hx ⊢
      tauto
    refine ⟨_, rfl, ?_, rfl, rfl, rfl⟩
    rw [SInv, windowsList_set_open]
    refine ⟨?_, ?_, ?_, ?_, ?_, hsorted⟩
    · rw [pairwise_append_one]
      refine ⟨hpre1, ?_⟩
      intro x hx
      exact hpre1w x hx
    · intro x hx
      rcases List.mem_append.mp hx with hx | hx
      · exact h2 x (hpremem x hx)
      · rw [List.mem_singleton] at hx
        subst hx
        refine ⟨hwtof, ?_, ?_, ?_, hss, ?_⟩
        · show min w.min_time mint ≤ max w.max_time maxt
          omega
        · show 0 < w.row_count + rc
          omega
        · intro kv hkv
          rcases hchar kv hkv with hc | hc
          · exact hw4 kv hc
          · obtain ⟨q, hq, -, hmax', hmin'⟩ := hc
            rcases hmin' with hmin' | ⟨n, hn, hmin', hlt⟩
            · omega
            · have := hw4 _ hn
              simp only at this
              omega
        · show max w.max_time maxt ≤ timeMax
          omega
    · intro x hx
      rcases List.mem_append.mp hx with hx | hx
      · calc x.time_of_last_write ≤ tow := (h4 x (hpremem x hx)).1
        _ = _ := htolw.symm
      · rw [List.mem_singleton] at hx
        subst hx
        show tow ≤ _
        rw [htolw]
    · intro x hx
      rcases List.mem_append.mp hx with hx | hx
      · exact seqBounded_mono (h4 x (hpremem x hx)).2 hgrow
      · rw [List.mem_singleton] at hx
        subst hx
        intro kv hkv
        rcases hchar kv hkv with hc | hc
        · exact seqBounded_mono (h4 w (by rw [hwl]; simp)).2 hgrow kv hc
        · obtain ⟨q, hq, hkid, hmax', -⟩ := hc
          rw [hkid, hself q hq]
          simp only [optBound]
          omega
    · rw [pairwise_append_one]
      refine ⟨hpre3, ?_⟩
      intro x hx kv hkv kv' hkv' hk
      rcases hchar kv' hkv' with hc | hc
      · exact hpre3w x hx kv hkv kv' hc hk
      · obtain ⟨q, hq, hkid, hmax', hmin'⟩ := hc
        rcases hmin' with hmin' | ⟨n, hn, hmin', hlt⟩
        · have hkeq : (q.id, kv.2) = kv := by
            rw [← hkid, ← hk]
          have := hxlt q hq x (hpremem x hx) kv.2 (by rw [hkeq]; exact hkv)
          omega
        · have := hpre3w x hx kv hkv (q.id, n) hn (by rw [hk, hkid])
          simp only at this
          omega

end PersistenceWindows

namespace PersistenceWindows

theorem add_range_spec {s : PersistenceWindows} {sequence : Option Sequence}
    {rc : Nat} {mint maxt nw nr : Int}
    (hinv : SInv s) (hrc : 0 < rc) (hmm : mint ≤ maxt) (hmax : maxt ≤ timeMax)
    (hfresh : ∀ q, sequence = some q →
      ∀ g, SeqMap.lookup q.id s.max_sequence_numbers = some g → g < q.number) :
    ∃ s', s.add_range sequence rc mint maxt nw nr = some s' ∧ SInv s' ∧
      s'.time_of_last_write = max s.time_of_last_write nw ∧
      s'.frozen = s.frozen ∧
      (∀ q, sequence = some q →
        updateMaxSeq q s.max_sequence_numbers = some s'.max_sequence_numbers) ∧
      (sequence = none → s'.max_sequence_numbers = s.max_sequence_numbers) := by
  obtain ⟨i1, i2, i3, i4, i5, i6⟩ := hinv
  -- step A: the `max_sequence_numbers` update succeeds
  have hstepA : ∃ m', (match sequence with
      | some q => updateMaxSeq q s.max_sequence_numbers
      | none => some s.max_sequence_numbers) = some m' ∧
      SeqMap.keysSorted m' ∧
      (∀ k g, SeqMap.lookup k s.max_sequence_numbers = some g →
        ∃ g', SeqMap.lookup k m' = some g' ∧ g ≤ g') ∧
      (∀ q, sequence = some q → SeqMap.lookup q.id m' = some q.number) := by
    cases hsq : sequence with
    | none =>
      exact ⟨s.max_sequence_numbers, rfl, i6,
        fun k g hg => ⟨g, hg, le_refl g⟩, fun q hq => by cases hq⟩
    | some q =>
      obtain ⟨m', hm'⟩ := updateMaxSeq_total (hfresh q hsq)
      obtain ⟨hs1, hs2, hs3, -⟩ := updateMaxSeq_spec hm' i6
      exact ⟨m', hm', hs1, hs3, fun q' hq' => by cases hq'; exact hs2⟩
  obtain ⟨m', hm', hm's, hm'grow, hm'self⟩ := hstepA
  -- step B: rotation succeeds and preserves the invariants
  have hProp : ∀ a b m : Window, a.add_window b = some m →
      (∀ kv ∈ m.sequencer_numbers,
        kv ∈ a.sequencer_numbers ∨ kv ∈ b.sequencer_numbers ∨
        ∃ n n', (kv.1, n) ∈ a.sequencer_numbers ∧ (kv.1, n') ∈ b.sequencer_numbers ∧
          kv.2 = MinMaxSequence.mk n.min n'.max) →
      m.time_of_last_write = b.time_of_last_write →
      (fun w => w.time_of_last_write ≤ max s.time_of_last_write nw ∧
        seqBounded w s.max_sequence_numbers) a →
      (fun w => w.time_of_last_write ≤ max s.time_of_last_write nw ∧
        seqBounded w s.max_sequence_numbers) b →
      (fun w => w.time_of_last_write ≤ max s.time_of_last_write nw ∧
        seqBounded w s.max_sequence_numbers) m := by
    intro a b m hm hchar hml ⟨ha1, ha2⟩ ⟨hb1, hb2⟩
    refine ⟨by rw [hml]; exact hb1, ?_⟩
    intro kv hkv
    rcases hchar kv hkv with hc | hc | hc
    · exact ha2 kv hc
    · exact hb2 kv hc
    · obtain ⟨n, n', hn, hn', hv⟩ := hc
      have := hb2 (kv.1, n') hn'
      cases hl : SeqMap.lookup kv.1 s.max_sequence_numbers with
      | none => rw [hl] at this; simp only [optBound] at this
      | some g =>
        rw [hl] at this
        simp only [optBound] at this ⊢
        have hv2 : kv.2.max = n'.max := by rw [hv]
        omega
  have hrot := rotate_impl_spec
    (fun w => w.time_of_last_write ≤ max s.time_of_last_write nw ∧
      seqBounded w s.max_sequence_numbers) hProp
    { s with time_of_last_write := max s.time_of_last_write nw, max_sequence_numbers := m' }
    nr i1 i2 i5
    (fun w hw => ⟨le_trans (i3 w hw) (le_max_left _ _), i4 w hw⟩)
  obtain ⟨s2, hrot, c1, c2, c3, c4, cfz, ctl, cms, -, -, -⟩ := hrot
  -- step C: appending to the open window succeeds
  obtain ⟨s', hopen, hsinv, htl', hms', hfz'⟩ := add_open_spec
    s2 sequence rc mint maxt
    (max s.time_of_last_write nw) s.max_sequence_numbers
    c1 c2 c3 c4
    (fun k g hg => by rw [cms]; exact hm'grow k g hg)
    (fun q hq => by rw [cms]; exact hm'self q hq)
    hfresh
    (by rw [cms]; exact hm's)
    ctl hrc hmm hmax
  have hmseq : s'.max_sequence_numbers = m' := by rw [hms', cms]
  refine ⟨s', ?_, hsinv, by rw [htl', ctl], by rw [hfz', cfz], ?_, ?_⟩
  rotate_left
  · intro q hq
    subst hq
    rw [hmseq]
    exact hm'
  · intro hq
    subst hq
    rw [hmseq]
    exact (Option.some.inj hm').symm
  simp only [add_range]
  rw [if_pos hmm]
  try dsimp only
  rw [hm']
  try dsimp only
  rw [hrot]
  try dsimp only
  exact hopen

end PersistenceWindows

/-! ## Traversal and further map lemmas -/

theorem seqTraverse_congr {f g : α → Option β} {l : List α}
    (h : ∀ a ∈ l, f a = g a) : seqTraverse f l = seqTraverse g l := by
  induction l with
  | nil => rfl
  | cons a rest ih =>
    simp only [seqTraverse, h a (List.mem_cons_self _ _),
      ih (fun x hx => h x (List.mem_cons_of_mem _ hx))]

theorem seqTraverse_map {f : α → Option β} {g : α → β} {l : List α}
    (h : ∀ a ∈ l, f a = some (g a)) : seqTraverse f l = some (l.map g) := by
  induction l with
  | nil => rfl
  | cons a rest ih =>
    simp only [seqTraverse, h a (List.mem_cons_self _ _), List.map_cons]
    rw [ih (fun x hx => h x (List.mem_cons_of_mem _ hx))]

theorem seqTraverse_mem {f : α → Option β} {l : List α} {r : List β}
    (h : seqTraverse f l = some r) : ∀ b ∈ r, ∃ a ∈ l, f a = some b := by
  induction l generalizing r with
  | nil =>
    simp only [seqTraverse, Option.some.injEq] at h
    subst h; simp
  | cons a rest ih =>
    simp only [seqTraverse] at h
    cases hfa : f a with
    | none => rw [hfa] at h; cases h
    | some b0 =>
      rw [hfa] at h
      cases hrec : seqTraverse f rest with
      | none => rw [hrec] at h; cases h
      | some bs =>
        rw [hrec] at h
        cases h
        intro b hb
        rcases List.mem_cons.mp hb with hb | hb
        · exact ⟨a, List.mem_cons_self _ _, by rw [hfa, hb]⟩
        · obtain ⟨a', ha', hfa'⟩ := ih hrec b hb
          exact ⟨a', List.mem_cons_of_mem _ ha', hfa'⟩

namespace SeqMap

theorem lookup_none_of_all_gt {l : List (Nat × α)} {k : Nat}
    (h : ∀ a ∈ l, k < a.1) : lookup k l = none := by
  induction l with
  | nil => rfl
  | cons kv rest ih =>
    obtain ⟨k', v'⟩ := kv
    have hk : k ≠ k' := by
      have := h (k', v') (List.mem_cons_self _ _)
      simp at this
      omega
    simp only [lookup, if_neg hk]
    exact ih (fun a ha => h a (List.mem_cons_of_mem _ ha))

theorem lookup_insertWith_self {l : List (Nat × α)} {f : α → α} {k : Nat} {v : α}
    (hs : keysSorted l) :
    lookup k (insertWith f k v l) =
      (match lookup k l with
       | some w => some (f w)
       | none => some v) := by
  induction l with
  | nil => simp [insertWith, lookup]
  | cons kv rest ih =>
    obtain ⟨k', v'⟩ := kv
    obtain ⟨hs1, hs2⟩ := List.pairwise_cons.mp hs
    simp only [insertWith]
    split
    · next hlt =>
      have hnone : lookup k ((k', v') :: rest) = none := by
        apply lookup_none_of_all_gt
        intro a ha
        rcases List.mem_cons.mp ha with ha | ha
        · rw [ha]; exact hlt
        · exact lt_trans hlt (hs1 _ ha)
      rw [hnone]
      simp [lookup]
    · split
      · next hge heq =>
        subst heq
        simp [lookup]
      · next hge hne =>
        have hk : k ≠ k' := fun hh => hne hh
        simp only [lookup, if_neg hk]
        exact ih hs2

theorem insertWith_max_id {l : List (Nat × Nat)} {k v g : Nat}
    (hs : keysSorted l) (hl : lookup k l = some g) (hv : v ≤ g) :
    insertWith (fun old => max old v) k v l = l := by
  induction l with
  | nil => simp [lookup] at hl
  | cons kv rest ih =>
    obtain ⟨k', v'⟩ := kv
    obtain ⟨hs1, hs2⟩ := List.pairwise_cons.mp hs
    simp only [insertWith]
    split
    · next hlt =>
      have hnone : lookup k ((k', v') :: rest) = none := by
        apply lookup_none_of_all_gt
        intro a ha
        rcases List.mem_cons.mp ha with ha | ha
        · rw [ha]; exact hlt
        · exact lt_trans hlt (hs1 _ ha)
      rw [hnone] at hl
      cases hl
    · split
      · next hge heq =>
        subst heq
        have hv' : v' = g := by simpa [lookup] using hl
        subst hv'
        rw [show max v' v = v' from by omega]
      · next hge hne =>
        have hk : k ≠ k' := fun hh => hne hh
        simp only [lookup, if_neg hk] at hl
        rw [ih hs2 hl]

end SeqMap

/-! ## `truncMin` only changes the minimum row time -/

namespace PersistenceWindows

theorem truncMin_tofw (n : Int) (w : Window) :
    (truncMin n w).time_of_first_write = w.time_of_first_write := by
  rw [truncMin]; split <;> rfl

theorem truncMin_tolw (n : Int) (w : Window) :
    (truncMin n w).time_of_last_write = w.time_of_last_write := by
  rw [truncMin]; split <;> rfl

theorem truncMin_row (n : Int) (w : Window) :
    (truncMin n w).row_count = w.row_count := by
  rw [truncMin]; split <;> rfl

theorem truncMin_max (n : Int) (w : Window) :
    (truncMin n w).max_time = w.max_time := by
  rw [truncMin]; split <;> rfl

theorem truncMin_seq (n : Int) (w : Window) :
    (truncMin n w).sequencer_numbers = w.sequencer_numbers := by
  rw [truncMin]; split <;> rfl

theorem truncMin_min (n : Int) (w : Window) :
    (truncMin n w).min_time = max w.min_time n := by
  rw [truncMin]
  split
  · next h => dsimp only; omega
  · next h => omega

end PersistenceWindows

namespace PersistenceWindows

theorem flush_eq {s s' : PersistenceWindows} {h : FlushHandle}
    (hf : s.flush h = some s') :
    ∃ p, s.persistable = some p ∧ p.max_time = h.timestamp ∧
      h.closed_count ≤ s.closed.length ∧ s.frozen = true ∧
      s'.persistable = none ∧ s'.frozen = false ∧ s'.openW = s.openW ∧
      s'.time_of_last_write = s.time_of_last_write ∧
      s'.max_sequence_numbers = s.max_sequence_numbers ∧
      s'.late_arrival_period = s.late_arrival_period ∧
      s'.closed_window_period = s.closed_window_period ∧
      ((∃ new_min, checkedAdd h.timestamp 1 = some new_min ∧
         s'.closed = ((s.closed.take h.closed_count).map (truncMin new_min)).filter
           (fun w => new_min ≤ w.max_time) ++ s.closed.drop h.closed_count) ∨
       (checkedAdd h.timestamp 1 = none ∧ s'.closed = [])) := by
  simp only [flush] at hf
  split at hf
  case isFalse => cases hf
  case isTrue hguard =>
    cases hp : s.persistable with
    | none => rw [hp] at hf; cases hf
    | some p =>
      rw [hp] at hf
      simp only at hf
      split at hf
      case isFalse => cases hf
      case isTrue hts =>
        split at hf
        case h_1 new_min hadd =>
          cases hf
          exact ⟨p, rfl, hts, hguard.1, hguard.2, rfl, rfl, rfl, rfl, rfl, rfl, rfl,
            Or.inl ⟨new_min, by rw [← hts]; exact hadd, rfl⟩⟩
        case h_2 hadd =>
          cases hf
          exact ⟨p, rfl, hts, hguard.1, hguard.2, rfl, rfl, rfl, rfl, rfl, rfl, rfl,
            Or.inr ⟨by rw [← hts]; exact hadd, rfl⟩⟩

theorem pairwise_trunc_filter {R : Window → Window → Prop} {l1 l2 : List Window}
    {f : Window → Window} {q : Window → Bool}
    (hL : ∀ a b, R a b ↔ R (f a) b)
    (hRr : ∀ a b, R a b ↔ R a (f b))
    (hp : List.Pairwise R (l1 ++ l2)) :
    List.Pairwise R ((l1.map f).filter q ++ l2) := by
  rw [List.pairwise_append] at hp ⊢
  obtain ⟨hp1, hp2, hp3⟩ := hp
  refine ⟨?_, hp2, ?_⟩
  · apply List.Pairwise.sublist (List.filter_sublist _)
    rw [List.pairwise_map]
    exact hp1.imp fun hab => (hRr _ _).mp ((hL _ _).mp hab)
  · intro a ha b hb
    have ha' := List.mem_of_mem_filter ha
    obtain ⟨a0, ha0, rfl⟩ := List.mem_map.mp ha'
    exact (hL a0 b).mp (hp3 a0 ha0 b hb)

theorem flush_SInv {s s' : PersistenceWindows} {h : FlushHandle}
    (hinv : SInv s) (hf : s.flush h = some s') : SInv s' := by
  obtain ⟨i1, i2, i3, i4, i5, i6⟩ := hinv
  obtain ⟨p, hp, hts, hcc, hfz, e1, e2, e3, e4, e5, e6, e7, hbr⟩ := flush_eq hf
  have hwl : s.windowsList = p :: (s.closed ++ s.openW.toList) := by
    simp [windowsList, hp]
  have htail1 : List.Pairwise wBefore (s.closed ++ s.openW.toList) := by
    rw [hwl] at i1
    exact (List.pairwise_cons.mp i1).2
  have htail5 : List.Pairwise seqDisjoint (s.closed ++ s.openW.toList) := by
    rw [hwl] at i5
    exact (List.pairwise_cons.mp i5).2
  have hmemtail : ∀ w ∈ s.closed ++ s.openW.toList, w ∈ s.windowsList := by
    intro w hw
    rw [hwl]
    exact List.mem_cons_of_mem _ hw
  rcases hbr with ⟨new_min, hadd, hcl⟩ | ⟨hadd, hcl⟩
  · -- no overflow: truncate, filter, keep the tail
    have hnmax : ∀ {w : Window}, w ∈ s'.closed →
        w ∈ s.closed.drop h.closed_count ∨
        ∃ w0 ∈ s.closed.take h.closed_count,
          w = truncMin new_min w0 ∧ new_min ≤ w.max_time := by
      intro w hw
      rw [hcl] at hw
      rcases List.mem_append.mp hw with hw | hw
      · right
        have hq := List.of_mem_filter hw
        have hw' := List.mem_of_mem_filter hw
        obtain ⟨w0, hw0, rfl⟩ := List.mem_map.mp hw'
        exact ⟨w0, hw0, rfl, by simpa using hq⟩
      · left; exact hw
    have hsplit : s.closed ++ s.openW.toList =
        s.closed.take h.closed_count ++
          (s.closed.drop h.closed_count ++ s.openW.toList) := by
      rw [← List.append_assoc, List.take_append_drop]
    have hwl' : s'.windowsList =
        ((s.closed.take h.closed_count).map (truncMin new_min)).filter
          (fun w => new_min ≤ w.max_time) ++
        (s.closed.drop h.closed_count ++ s.openW.toList) := by
      simp [windowsList, e1, e3, hcl, List.append_assoc]
    have hmem' : ∀ w ∈ s'.windowsList,
        w ∈ s.windowsList ∨
        ∃ w0 ∈ s.closed.take h.closed_count,
          w = truncMin new_min w0 ∧ new_min ≤ w.max_time := by
      intro w hw
      rw [hwl'] at hw
      rcases List.mem_append.mp hw with hw | hw
      · right
        have hq := List.of_mem_filter hw
        have hw' := List.mem_of_mem_filter hw
        obtain ⟨w0, hw0, rfl⟩ := List.mem_map.mp hw'
        exact ⟨w0, hw0, rfl, by simpa using hq⟩
      · left
        apply hmemtail
        rcases List.mem_append.mp hw with hw | hw
        · exact List.mem_append.mpr (Or.inl (List.mem_of_mem_drop hw))
        · exact List.mem_append.mpr (Or.inr hw)
    have htake_mem : ∀ w0 ∈ s.closed.take h.closed_count, w0 ∈ s.windowsList := by
      intro w0 hw0
      apply hmemtail
      exact List.mem_append.mpr (Or.inl (List.mem_of_mem_take hw0))
    refine ⟨?_, ?_, ?_, ?_, ?_, by rw [e5]; exact i6⟩
    · rw [hwl']
      apply pairwise_trunc_filter
        (fun a b => by simp [wBefore, truncMin_tolw])
        (fun a b => by simp [wBefore, truncMin_tofw])
      rw [← hsplit]
      exact htail1
    · intro w hw
      rcases hmem' w hw with hw' | ⟨w0, hw0, rfl, hq⟩
      · exact i2 w hw'
      · obtain ⟨j1, j2, j3, j4, j5, j6⟩ := i2 w0 (htake_mem w0 hw0)
        rw [truncMin_max] at hq
        refine ⟨?_, ?_, ?_, ?_, ?_, ?_⟩
        · rw [truncMin_tofw, truncMin_tolw]; exact j1
        · rw [truncMin_min, truncMin_max]; omega
        · rw [truncMin_row]; exact j3
        · rw [truncMin_seq]; exact j4
        · rw [truncMin_seq]; exact j5
        · rw [truncMin_max]; exact j6
    · intro w hw
      rw [e4]
      rcases hmem' w hw with hw' | ⟨w0, hw0, rfl, -⟩
      · exact i3 w hw'
      · rw [truncMin_tolw]
        exact i3 w0 (htake_mem w0 hw0)
    · intro w hw
      rw [e5]
      rcases hmem' w hw with hw' | ⟨w0, hw0, rfl, -⟩
      · exact i4 w hw'
      · intro kv hkv
        rw [truncMin_seq] at hkv
        exact i4 w0 (htake_mem w0 hw0) kv hkv
    · rw [hwl']
      apply pairwise_trunc_filter
        (fun a b => by
          constructor
          · intro hd kv hkv kv' hkv' hk
            rw [truncMin_seq] at hkv
            exact hd kv hkv kv' hkv' hk
          · intro hd kv hkv kv' hkv' hk
            apply hd kv _ kv' hkv' hk
            rw [truncMin_seq]
            exact hkv)
        (fun a b => by
          constructor
          · intro hd kv hkv kv' hkv' hk
            rw [truncMin_seq] at hkv'
            exact hd kv hkv kv' hkv' hk
          · intro hd kv hkv kv' hkv' hk
            apply hd kv hkv kv' _ hk
            rw [truncMin_seq]
            exact hkv')
      rw [← hsplit]
      exact htail5
  · -- overflow: every closed window is dropped
    have hwl' : s'.windowsList = s.openW.toList := by
      simp [windowsList, e1, e3, hcl]
    have hsub : ∀ w ∈ s'.windowsList, w ∈ s.windowsList := by
      intro w hw
      rw [hwl'] at hw
      exact hmemtail w (List.mem_append.mpr (Or.inr hw))
    refine ⟨?_, fun w hw => i2 w (hsub w hw), ?_, ?_, ?_, by rw [e5]; exact i6⟩
    · rw [hwl']
      apply List.Pairwise.sublist _ htail1
      exact List.sublist_append_right _ _
    · intro w hw
      rw [e4]
      exact i3 w (hsub w hw)
    · intro w hw
      rw [e5]
      exact i4 w (hsub w hw)
    · rw [hwl']
      apply List.Pairwise.sublist _ htail5
      exact List.sublist_append_right _ _

end PersistenceWindows

namespace PersistenceWindows

theorem markSeen_maxseq_spec (entries : List (Nat × OptionalMinMaxSequence)) :
    ∀ (m : List (Nat × Nat)), SeqMap.keysSorted m →
    SeqMap.keysSorted (entries.foldl
      (fun m kv => SeqMap.insertWith (fun old => max old kv.2.max) kv.1 kv.2.max m) m) ∧
    ∀ k g, SeqMap.lookup k m = some g →
      ∃ g', SeqMap.lookup k (entries.foldl
        (fun m kv => SeqMap.insertWith (fun old => max old kv.2.max) kv.1 kv.2.max m) m) =
          some g' ∧ g ≤ g' := by
  induction entries with
  | nil => exact fun m hs => ⟨hs, fun k g hg => ⟨g, hg, le_refl g⟩⟩
  | cons kv rest ih =>
    intro m hs
    simp only [List.foldl_cons]
    set m1 := SeqMap.insertWith (fun old => max old kv.2.max) kv.1 kv.2.max m with hm1
    have hs1 : SeqMap.keysSorted m1 := SeqMap.insertWith_sorted hs
    obtain ⟨ih1, ih2⟩ := ih m1 hs1
    refine ⟨ih1, ?_⟩
    intro k g hg
    have hstep : ∃ g0, SeqMap.lookup k m1 = some g0 ∧ g ≤ g0 := by
      by_cases hk : k = kv.1
      · subst hk
        rw [hm1, SeqMap.lookup_insertWith_self hs, hg]
        exact ⟨max g kv.2.max, rfl, le_max_left _ _⟩
      · rw [hm1, SeqMap.lookup_insertWith_ne hk]
        exact ⟨g, hg, le_refl g⟩
    obtain ⟨g0, hg0, hle0⟩ := hstep
    obtain ⟨g', hg', hle'⟩ := ih2 k g0 hg0
    exact ⟨g', hg', le_trans hle0 hle'⟩

theorem mark_seen_SInv {s : PersistenceWindows} {cp : PartitionCheckpoint}
    (hinv : SInv s) : SInv (s.mark_seen_and_persisted cp) := by
  obtain ⟨i1, i2, i3, i4, i5, i6⟩ := hinv
  obtain ⟨hsort, hgrow⟩ := markSeen_maxseq_spec cp.sequencer_numbers
    s.max_sequence_numbers i6
  refine ⟨i1, i2, i3, ?_, i5, hsort⟩
  intro w hw
  exact seqBounded_mono (i4 w hw) hgrow

/-- If the fold of `mark_seen_and_persisted` only revisits sequencers at
values it has already recorded, the map is unchanged. -/
theorem markSeen_maxseq_id (entries : List (Nat × OptionalMinMaxSequence)) :
    ∀ (m : List (Nat × Nat)), SeqMap.keysSorted m →
    (∀ kv ∈ entries, ∃ g, SeqMap.lookup kv.1 m = some g ∧ kv.2.max ≤ g) →
    entries.foldl
      (fun m kv => SeqMap.insertWith (fun old => max old kv.2.max) kv.1 kv.2.max m) m
      = m := by
  induction entries with
  | nil => intro m _ _; rfl
  | cons kv rest ih =>
    intro m hs hmem
    simp only [List.foldl_cons]
    obtain ⟨g, hg, hle⟩ := hmem kv (List.mem_cons_self _ _)
    rw [SeqMap.insertWith_max_id hs hg hle]
    exact ih m hs (fun kv' hkv' => hmem kv' (List.mem_cons_of_mem _ hkv'))

theorem flush_handle_SInv {s s' : PersistenceWindows} {now : Int}
    {r : Option FlushHandle} (hinv : SInv s)
    (hf : s.flush_handle_impl now = some (r, s')) :
    SInv s' := by
  obtain ⟨i1, i2, i3, i4, i5, i6⟩ := hinv
  simp only [flush_handle_impl] at hf
  split at hf
  · cases hf
    exact ⟨i1, i2, i3, i4, i5, i6⟩
  · -- not frozen: the open window is moved and a rotation happens
    set sm : PersistenceWindows :=
      { s with closed := s.closed ++ s.openW.toList, openW := none } with hsm
    have hwm : sm.windowsList = s.windowsList := windowsList_move s
    have hmrot := rotate_impl_spec
      (fun w => w.time_of_last_write ≤ s.time_of_last_write ∧
        seqBounded w s.max_sequence_numbers)
      (by
        intro a b m hm hchar hml ⟨ha1, ha2⟩ ⟨hb1, hb2⟩
        refine ⟨by rw [hml]; exact hb1, ?_⟩
        intro kv hkv
        rcases hchar kv hkv with hc | hc | hc
        · exact ha2 kv hc
        · exact hb2 kv hc
        · obtain ⟨n, n', hn, hn', hv⟩ := hc
          have := hb2 (kv.1, n') hn'
          cases hl : SeqMap.lookup kv.1 s.max_sequence_numbers with
          | none => rw [hl] at this; simp only [optBound] at this
          | some g =>
            rw [hl] at this
            simp only [optBound] at this ⊢
            have hv2 : kv.2.max = n'.max := by rw [hv]
            omega)
      sm now
      (by rw [hwm]; exact i1) (by rw [hwm]; exact i2) (by rw [hwm]; exact i5)
      (by rw [hwm]; exact fun w hw => ⟨i3 w hw, i4 w hw⟩)
    obtain ⟨s2, hrot, c1, c2, c3, c4, -, ctl, cms, -, -, -⟩ := hmrot
    rw [hrot] at hf
    simp only at hf
    have hSInv2 : SInv s2 := by
      refine ⟨c1, c2, ?_, ?_, c3, by rw [cms]; exact i6⟩
      · intro w hw
        rw [ctl]
        exact (c4 w hw).1
      · intro w hw
        rw [cms]
        exact (c4 w hw).2
    split at hf
    · cases hf
      exact hSInv2
    · cases hinner : s2.sequencer_numbers_inner true with
      | none =>
        rw [hinner] at hf
        cases hf
      | some seqs =>
        rw [hinner] at hf
        simp only [Option.map_some'] at hf
        cases hf
        exact hSInv2

end PersistenceWindows

namespace PersistenceWindows

theorem new_SInv (lap : Nat) (now : Int) : SInv (PersistenceWindows.new lap now) := by
  refine ⟨?_, ?_, ?_, ?_, ?_, ?_⟩ <;>
    simp [SInv, windowsList, PersistenceWindows.new, SeqMap.keysSorted]

theorem rotate_impl_SInv {s s' : PersistenceWindows} {now : Int}
    (hinv : SInv s) (hrot : s.rotate_impl now = some s') : SInv s' := by
  obtain ⟨i1, i2, i3, i4, i5, i6⟩ := hinv
  obtain ⟨s2, hrot2, c1, c2, c3, c4, -, ctl, cms, -, -, -⟩ := rotate_impl_spec
    (fun w => w.time_of_last_write ≤ s.time_of_last_write ∧
      seqBounded w s.max_sequence_numbers)
    (by
      intro a b m hm hchar hml ⟨ha1, ha2⟩ ⟨hb1, hb2⟩
      refine ⟨by rw [hml]; exact hb1, ?_⟩
      intro kv hkv
      rcases hchar kv hkv with hc | hc | hc
      · exact ha2 kv hc
      · exact hb2 kv hc
      · obtain ⟨n, n', hn, hn', hv⟩ := hc
        have := hb2 (kv.1, n') hn'
        cases hl : SeqMap.lookup kv.1 s.max_sequence_numbers with
        | none => rw [hl] at this; simp only [optBound] at this
        | some g =>
          rw [hl] at this
          simp only [optBound] at this ⊢
          have hv2 : kv.2.max = n'.max := by rw [hv]
          omega)
    s now i1 i2 i5 (fun w hw => ⟨i3 w hw, i4 w hw⟩)
  rw [hrot2] at hrot
  cases hrot
  refine ⟨c1, c2, ?_, ?_, c3, by rw [cms]; exact i6⟩
  · intro w hw
    rw [ctl]
    exact (c4 w hw).1
  · intro w hw
    rw [cms]
    exact (c4 w hw).2

theorem add_range_some_facts {s s' : PersistenceWindows} {sequence : Option Sequence}
    {rc : Nat} {mint maxt nw nr : Int} (hs : SeqMap.keysSorted s.max_sequence_numbers)
    (hadd : s.add_range sequence rc mint maxt nw nr = some s') :
    mint ≤ maxt ∧ ∀ q, sequence = some q →
      ∀ g, SeqMap.lookup q.id s.max_sequence_numbers = some g → g < q.number := by
  simp only [add_range] at hadd
  split at hadd
  case isFalse => cases hadd
  case isTrue hmm =>
    refine ⟨hmm, ?_⟩
    intro q hq g hg
    subst hq
    dsimp only at hadd
    cases hupd : updateMaxSeq q s.max_sequence_numbers with
    | none => rw [hupd] at hadd; cases hadd
    | some m' =>
      obtain ⟨-, -, -, hlt⟩ := updateMaxSeq_spec hupd hs
      exact hlt g hg

theorem add_range_SInv {s s' : PersistenceWindows} {sequence : Option Sequence}
    {rc : Nat} {mint maxt nw nr : Int}
    (hinv : SInv s) (hrc : 0 < rc) (hmax : maxt ≤ timeMax)
    (hadd : s.add_range sequence rc mint maxt nw nr = some s') : SInv s' := by
  obtain ⟨hmm, hfresh⟩ := add_range_some_facts hinv.2.2.2.2.2 hadd
  obtain ⟨s'', heq, hinv', -, -⟩ := add_range_spec hinv hrc hmm hmax hfresh
  rw [heq] at hadd
  cases hadd
  exact hinv'

/-- Every reachable state satisfies the state invariant. -/
theorem reachable_SInv : ∀ {s : PersistenceWindows}, Reachable s → SInv s := by
  intro s h
  induction h with
  | init lap now => exact new_SInv lap now
  | add_range s s' sequence rc mint maxt nw nr _ hrc hmax hadd ih =>
    exact add_range_SInv ih hrc hmax hadd
  | rotate s s' now _ hrot ih => exact rotate_impl_SInv ih hrot
  | flush_handle s s' now r _ hf ih => exact flush_handle_SInv ih hf
  | flush s s' h _ hf ih => exact flush_SInv ih hf
  | mark_seen s cp _ ih => exact mark_seen_SInv ih
  | set_late_arrival s lap _ ih =>
    obtain ⟨i1, i2, i3, i4, i5, i6⟩ := ih
    exact ⟨i1, i2, i3, i4, i5, i6⟩
  | drop_handle s _ ih =>
    obtain ⟨i1, i2, i3, i4, i5, i6⟩ := ih
    exact ⟨i1, i2, i3, i4, i5, i6⟩

end PersistenceWindows

/-! ## Helper lemmas for the claim theorems -/

theorem findSome?_congr {f g : α → Option β} {l : List α}
    (h : ∀ a ∈ l, f a = g a) : l.findSome? f = l.findSome? g := by
  induction l with
  | nil => rfl
  | cons a rest ih =>
    rw [List.findSome?_cons, List.findSome?_cons, h a (List.mem_cons_self _ _),
      ih (fun x hx => h x (List.mem_cons_of_mem _ hx))]

theorem findSome?_filter {f : α → Option β} {q : α → Bool} {l : List α} :
    (l.filter q).findSome? f =
      l.findSome? (fun a => if q a then f a else none) := by
  induction l with
  | nil => rfl
  | cons a rest ih =>
    rw [List.filter_cons]
    by_cases hq : q a
    · rw [if_pos hq, List.findSome?_cons, List.findSome?_cons, if_pos hq]
      cases f a <;> simp [ih]
    · rw [if_neg hq, List.findSome?_cons, if_neg hq]
      exact ih

theorem findSome?_map {f : β → Option γ} {g : α → β} {l : List α} :
    (l.map g).findSome? f = l.findSome? (fun a => f (g a)) := by
  induction l with
  | nil => rfl
  | cons a rest ih =>
    rw [List.map_cons, List.findSome?_cons, List.findSome?_cons]
    cases f (g a) <;> simp [ih]

theorem findSome?_eq_none_of {f : α → Option β} {l : List α}
    (h : ∀ a ∈ l, f a = none) : l.findSome? f = none := by
  induction l with
  | nil => rfl
  | cons a rest ih =>
    rw [List.findSome?_cons, h a (List.mem_cons_self _ _)]
    exact ih (fun x hx => h x (List.mem_cons_of_mem _ hx))

theorem takeWhile_eq_filter_of_pairwise {p : α → Bool} {l : List α}
    (h : List.Pairwise (fun a b => p b = true → p a = true) l) :
    l.takeWhile p = l.filter p := by
  induction l with
  | nil => rfl
  | cons a rest ih =>
    obtain ⟨h1, h2⟩ := List.pairwise_cons.mp h
    by_cases hp : p a
    · rw [List.takeWhile_cons, List.filter_cons, if_pos hp, if_pos hp, ih h2]
    · rw [List.takeWhile_cons, List.filter_cons, if_neg hp, if_neg hp]
      have : ∀ b ∈ rest, ¬ p b = true := fun b hb hpb => hp (h1 b hb hpb)
      rw [List.filter_eq_nil_iff.mpr this]

theorem is_persistable_iff {w : Window} {now : Int} {lap : Nat} :
    w.is_persistable now lap = true ↔
      w.time_of_first_write ≤ now ∧ (lap : Int) ≤ now - w.time_of_first_write := by
  rw [Window.is_persistable, checkedDurationSince]
  by_cases h : w.time_of_first_write ≤ now
  · rw [if_pos h]
    simp only [decide_eq_true_eq]
    omega
  · rw [if_neg h]
    simp only [Bool.false_eq_true, false_iff]
    omega

namespace PersistenceWindows

theorem updateMaxSeq_lookup_ne {q : Sequence} {m m' : List (Nat × Nat)} {k : Nat}
    (h : updateMaxSeq q m = some m') (hk : k ≠ q.id) :
    SeqMap.lookup k m' = SeqMap.lookup k m := by
  induction m generalizing m' with
  | nil =>
    simp only [updateMaxSeq, Option.some.injEq] at h
    subst h
    simp [SeqMap.lookup, hk]
  | cons kv0 rest ih =>
    obtain ⟨k0, v0⟩ := kv0
    simp only [updateMaxSeq] at h
    split at h
    · cases h
      simp [SeqMap.lookup, hk]
    · split at h
      · next hne heq =>
        split at h
        · cases h
          subst heq
          simp only [SeqMap.lookup]
          rw [if_neg (by omega), if_neg (by omega)]
        · cases h
      · cases hrec : updateMaxSeq q rest with
        | none => rw [hrec] at h; cases h
        | some r' =>
          rw [hrec] at h
          simp only [Option.bind_eq_bind, Option.some_bind, Option.some.injEq] at h
          subst h
          simp only [SeqMap.lookup]
          split
          · rfl
          · exact ih hrec

theorem rotateLoop_none {pOpt : Option Window} {closed c' : List Window}
    {now : Int} {lap : Nat}
    (h : rotateLoop pOpt closed now lap = some (none, c')) :
    pOpt = none ∧ c' = closed := by
  induction closed generalizing pOpt with
  | nil =>
    simp only [rotateLoop, Option.some.injEq, Prod.mk.injEq] at h
    exact ⟨h.1, h.2.symm⟩
  | cons w rest ih =>
    simp only [rotateLoop] at h
    split at h
    · cases pOpt with
      | none =>
        exact absurd (ih h).1 (by simp)
      | some p =>
        dsimp only at h
        cases hm : p.add_window w with
        | none => rw [hm] at h; cases h
        | some m =>
          rw [hm] at h
          exact absurd (ih h).1 (by simp)
    · simp only [Option.some.injEq, Prod.mk.injEq] at h
      exact ⟨h.1, h.2.symm⟩

theorem rotate_impl_openW_none {s s' : PersistenceWindows} {now : Int}
    (hopen : s.openW = none) (h : s.rotate_impl now = some s') :
    s'.openW = none := by
  have hdo : ¬ (match s.openW with
      | some w => w.is_closeable now s.closed_window_period
      | none => false) = true := by
    rw [hopen]
    simp
  by_cases hfz : s.frozen = true
  · rw [rotate_impl_eq_stay_frozen s now hdo hfz] at h
    cases h
    exact hopen
  · rw [rotate_impl_eq_stay_unfrozen s now hdo hfz] at h
    cases hl : rotateLoop s.persistable s.closed now s.late_arrival_period with
    | none => rw [hl] at h; cases h
    | some pc =>
      rw [hl] at h
      simp only [Option.map_some'] at h
      cases h
      exact hopen

/-- Structure of a `flush_handle_impl` call that returned without panicking. -/
theorem flush_handle_impl_some_eq {s s' : PersistenceWindows} {now : Int}
    {r : Option FlushHandle}
    (hf : s.flush_handle_impl now = some (r, s')) :
    (s.frozen = true ∧ r = none ∧ s' = s) ∨
    (s.frozen = false ∧ ∃ t,
      ({ s with closed := s.closed ++ s.openW.toList, openW := none } : PersistenceWindows).rotate_impl now = some t ∧
      ((t.persistable = none ∧ r = none ∧ s' = t) ∨
       (∃ p seqs, t.persistable = some p ∧
         t.sequencer_numbers_inner true = some seqs ∧
         r = some { closed_count := t.closed.length
                    timestamp := p.max_time
                    sequencer_numbers := seqs } ∧
         s' = { t with frozen := true }))) := by
  simp only [flush_handle_impl] at hf
  split at hf
  · next hfz =>
    cases hf
    exact Or.inl ⟨hfz, rfl, rfl⟩
  · next hfz =>
    cases hrot : ({ s with closed := s.closed ++ s.openW.toList, openW := none } : PersistenceWindows).rotate_impl now with
    | none => rw [hrot] at hf; cases hf
    | some t =>
      rw [hrot] at hf
      simp only at hf
      refine Or.inr ⟨by simpa using hfz, t, rfl, ?_⟩
      split at hf
      · next heq =>
        cases hf
        exact Or.inl ⟨heq, rfl, rfl⟩
      · next p heq =>
        cases hinner : t.sequencer_numbers_inner true with
        | none => rw [hinner] at hf; cases hf
        | some seqs =>
          rw [hinner] at hf
          simp only [Option.map_some'] at hf
          cases hf
          exact Or.inr ⟨p, seqs, heq, rfl, rfl, rfl⟩

end PersistenceWindows

/-! ## Claim theorems -/

/-- C1 (counterexample): in a state whose windows are all empty but whose
`max_sequence_numbers` is non-empty (reached via `mark_seen_and_persisted` on
a fresh partition), `sequencer_numbers_inner` does NOT return an empty map:
it returns one `(none, max)` entry per known sequencer, so the claim that it
returns an empty map is false. -/
theorem sequencer_numbers_empty_counterexample :
    c1_state.is_empty = true ∧
    c1_state.max_sequence_numbers ≠ [] ∧
    c1_state.sequencer_numbers_inner false ≠ some [] ∧
    c1_state.sequencer_numbers_inner true ≠ some [] ∧
    c1_state.sequencer_numbers_inner false =
      some [(1, OptionalMinMaxSequence.mk none 2)] := by
  refine ⟨?_, ?_, ?_, ?_, ?_⟩ <;> decide

/-- C1 (amended): in every state whose set of windows is empty,
`sequencer_numbers_inner` (with or without `skip_persistable`) returns the map
with one `(none, max)` entry per sequencer recorded in
`max_sequence_numbers`; in particular the result is empty only when
`max_sequence_numbers` is itself empty. -/
theorem sequencer_numbers_empty_windows (s : PersistenceWindows) (b : Bool)
    (h : s.windowsList = []) :
    s.sequencer_numbers_inner b =
      some (s.max_sequence_numbers.map fun kv =>
        (kv.1, OptionalMinMaxSequence.mk none kv.2)) := by
  have hp : s.persistable = none := by
    cases hp : s.persistable with
    | none => rfl
    | some p =>
      rw [PersistenceWindows.windowsList, hp] at h
      simp at h
  simp only [PersistenceWindows.sequencer_numbers_inner, hp, h]
  cases b <;> exact seqTraverse_map (fun kv _ => rfl)

theorem sequencer_numbers_empty_windows_witness :
    c1_state.windowsList = [] ∧
    c1_state.sequencer_numbers_inner false =
      some (c1_state.max_sequence_numbers.map fun kv =>
        (kv.1, OptionalMinMaxSequence.mk none kv.2)) :=
  ⟨by decide, sequencer_numbers_empty_windows c1_state false (by decide)⟩

/-- C2 (counterexample): an execution in which the flush handle's timestamp is
`Time::MAX`, a closed window is appended after the handle was taken
(`closed_count = 0`, one closed window present before the flush), and
completing the flush overflows `timestamp + 1 ns`: the post-flush `closed`
list is empty, so the window at index `0 ≥ closed_count` was dropped rather
than left untouched. -/
theorem flush_overflow_counterexample :
    (c2_run.map fun x =>
      (x.2.1.closed_count, x.2.1.timestamp, x.1.closed.length, x.2.2.closed)) =
      some (0, timeMax, 1, []) ∧
    checkedAdd timeMax 1 = none := by
  refine ⟨?_, ?_⟩ <;> decide

/-- C2 (amended): when `timestamp + 1 ns` overflows during `flush`, ALL
closed windows are dropped — including those appended after the handle was
taken (indices `≥ closed_count`). -/
theorem flush_overflow_drops_all {s s' : PersistenceWindows} {h : FlushHandle}
    (hf : s.flush h = some s')
    (hov : checkedAdd h.timestamp 1 = none) : s'.closed = [] := by
  obtain ⟨p, -, -, -, -, -, -, -, -, -, -, -, hbr⟩ :=
    PersistenceWindows.flush_eq hf
  rcases hbr with ⟨nm, hadd, -⟩ | ⟨-, hcl⟩
  · rw [hadd] at hov
    cases hov
  · exact hcl

theorem flush_overflow_drops_all_witness :
    c2_pre.flush c2_h = some c2_post ∧ checkedAdd c2_h.timestamp 1 = none ∧
    c2_post.closed = [] :=
  ⟨by decide, by decide,
    @flush_overflow_drops_all c2_pre c2_post c2_h
      (by decide) (by decide)⟩

/-- C3: when `complete_flush` succeeds without overflow, the first
`closed_count` closed windows have their `min_time` raised to
`timestamp + 1 ns` where it was lower, exactly those whose `max_time` is
below `timestamp + 1 ns` are dropped, and every retained window among them
has `min_time > timestamp`; later windows are kept unchanged. -/
theorem flush_truncates_head {s s' : PersistenceWindows} {h : FlushHandle}
    {new_min : Int} (hf : s.flush h = some s')
    (hadd : checkedAdd h.timestamp 1 = some new_min) :
    new_min = h.timestamp + 1 ∧
    s'.closed = ((s.closed.take h.closed_count).map
        (PersistenceWindows.truncMin new_min)).filter
        (fun w => new_min ≤ w.max_time) ++ s.closed.drop h.closed_count ∧
    (∀ w ∈ s.closed.take h.closed_count,
      (PersistenceWindows.truncMin new_min w).min_time = max w.min_time new_min) ∧
    (∀ w ∈ ((s.closed.take h.closed_count).map
        (PersistenceWindows.truncMin new_min)).filter
        (fun w => new_min ≤ w.max_time), h.timestamp < w.min_time) := by
  obtain ⟨p, -, -, -, -, -, -, -, -, -, -, -, hbr⟩ :=
    PersistenceWindows.flush_eq hf
  have hnm : new_min = h.timestamp + 1 := by
    rw [checkedAdd] at hadd
    split at hadd
    · exact (Option.some.inj hadd).symm
    · cases hadd
  rcases hbr with ⟨nm, hadd', hcl⟩ | ⟨hadd', -⟩
  · rw [hadd] at hadd'
    cases hadd'
    refine ⟨hnm, hcl, ?_, ?_⟩
    · intro w _
      exact PersistenceWindows.truncMin_min new_min w
    · intro w hw
      have hq := List.of_mem_filter hw
      have hw' := List.mem_of_mem_filter hw
      obtain ⟨w0, -, rfl⟩ := List.mem_map.mp hw'
      rw [PersistenceWindows.truncMin_min]
      omega
  · rw [hadd] at hadd'
    cases hadd'

theorem flush_truncates_head_witness :
    checkedAdd c3_h.timestamp 1 = some 11 ∧
    c3_post.closed = ((c3_pre.closed.take c3_h.closed_count).map
        (PersistenceWindows.truncMin 11)).filter
        (fun w => (11 : Int) ≤ w.max_time) ++ c3_pre.closed.drop c3_h.closed_count :=
  ⟨by decide,
    (@flush_truncates_head c3_pre c3_post c3_h 11
      (by decide) (by decide)).2.1⟩

theorem c4_state_reachable : Reachable c4_state :=
  Reachable.add_range (PersistenceWindows.new 10 0) c4_state
    (some ⟨1, 1⟩) 1 0 5 0 0 (Reachable.init 10 0)
    (by decide) (by decide) (by decide)

/-- C4: at every reachable state, consecutive windows A then B in the
oldest-to-newest chain `persistable → closed → open` satisfy
`A.time_of_last_write ≤ B.time_of_first_write`; since every mutating
operation maps reachable states to reachable states, each of them preserves
this ordering invariant. -/
theorem reachable_chain_ordering {s : PersistenceWindows}
    (h : Reachable s) :
    List.Chain' wBefore s.windowsList :=
  ((PersistenceWindows.reachable_SInv h).1).chain'

theorem reachable_chain_ordering_witness :
    List.Chain' wBefore c4_state.windowsList :=
  reachable_chain_ordering c4_state_reachable

/-- C5: at every reachable state, every window in the chain satisfies
`min_time ≤ max_time`, `time_of_first_write ≤ time_of_last_write`,
`row_count > 0` and `min ≤ max` for each of its sequencer entries; the
reachable-state formulation covers every operation, including the post-flush
truncation that raises `min_time`. -/
theorem reachable_window_invariants {s : PersistenceWindows}
    (h : Reachable s) :
    ∀ w ∈ s.windowsList, w.min_time ≤ w.max_time ∧
      w.time_of_first_write ≤ w.time_of_last_write ∧ 0 < w.row_count ∧
      ∀ kv ∈ w.sequencer_numbers, kv.2.min ≤ kv.2.max := by
  intro w hw
  obtain ⟨j1, j2, j3, j4, -, -⟩ := (PersistenceWindows.reachable_SInv h).2.1 w hw
  exact ⟨j2, j1, j3, j4⟩

theorem reachable_window_invariants_witness :
    c4_open.min_time ≤ c4_open.max_time ∧ 0 < c4_open.row_count :=
  ⟨(reachable_window_invariants c4_state_reachable c4_open (by decide)).1,
   (reachable_window_invariants c4_state_reachable c4_open (by decide)).2.2.1⟩

/-- C7: if the clock regresses strictly between two `add_range` calls, both
calls still succeed (no panic) and the partition's `time_of_last_write`
settles at the larger clock reading: the clamp
`max(time_of_last_write, now())` absorbs the regression, so arrival-time
bounds never decrease. -/
theorem clock_regression_no_panic {s : PersistenceWindows} {q1 q2 : Sequence}
    {rc1 rc2 : Nat} {mint1 maxt1 mint2 maxt2 now1 now2 : Int}
    (hinv : SInv s) (hreg : now2 < now1)
    (hrc1 : 0 < rc1) (hrc2 : 0 < rc2)
    (hmm1 : mint1 ≤ maxt1) (hmm2 : mint2 ≤ maxt2)
    (hmax1 : maxt1 ≤ timeMax) (hmax2 : maxt2 ≤ timeMax)
    (hf1 : ∀ g, SeqMap.lookup q1.id s.max_sequence_numbers = some g → g < q1.number)
    (hf2 : ∀ g, SeqMap.lookup q2.id s.max_sequence_numbers = some g → g < q2.number)
    (h12 : q1.id = q2.id → q1.number < q2.number) :
    ((s.add_range (some q1) rc1 mint1 maxt1 now1 now1).bind
      (fun s1 => s1.add_range (some q2) rc2 mint2 maxt2 now2 now2)).map
        PersistenceWindows.time_of_last_write =
      some (max s.time_of_last_write now1) := by
  obtain ⟨s1, h1, hinv1, htl1, -, hms1, -⟩ :=
    @PersistenceWindows.add_range_spec s (some q1) rc1 mint1 maxt1 now1 now1
      hinv hrc1 hmm1 hmax1 (fun q hq g hg => by cases hq; exact hf1 g hg)
  have hms1' := hms1 q1 rfl
  have hfresh2 : ∀ q, (some q2 : Option Sequence) = some q →
      ∀ g, SeqMap.lookup q.id s1.max_sequence_numbers = some g → g < q.number := by
    intro q hq g hg
    cases hq
    by_cases hid : q2.id = q1.id
    · rw [hid] at hg
      have hself := (PersistenceWindows.updateMaxSeq_spec hms1'
        hinv.2.2.2.2.2).2.1
      rw [hself] at hg
      cases hg
      exact h12 hid.symm
    · rw [PersistenceWindows.updateMaxSeq_lookup_ne hms1' hid] at hg
      exact hf2 g hg
  obtain ⟨s2, h2, -, htl2, -, -, -⟩ :=
    @PersistenceWindows.add_range_spec s1 (some q2) rc2 mint2 maxt2 now2 now2
      hinv1 hrc2 hmm2 hmax2 hfresh2
  rw [h1]
  show (s1.add_range (some q2) rc2 mint2 maxt2 now2 now2).map
    PersistenceWindows.time_of_last_write = some (max s.time_of_last_write now1)
  rw [h2]
  show some s2.time_of_last_write = some (max s.time_of_last_write now1)
  rw [htl2, htl1]
  congr 1
  omega

theorem clock_regression_no_panic_witness :
    (((PersistenceWindows.new 60000000000 0).add_range
        (some ⟨1, 1⟩) 1 100 200 1 1).bind
      (fun s1 => s1.add_range (some ⟨1, 2⟩) 1 100 200 0 0)).map
        PersistenceWindows.time_of_last_write =
      some (max (PersistenceWindows.new 60000000000 0).time_of_last_write 1) :=
  clock_regression_no_panic (by decide) (by decide) (by decide) (by decide)
    (by decide) (by decide) (by decide) (by decide)
    (fun g hg => by cases hg) (fun g hg => by cases hg) (by decide)

/-- C8: `persistable_row_count` equals the sum of `row_count` over all
windows satisfying `is_persistable`; the `take_while` prefix scan in the
implementation computes the same sum as filtering every window because
`time_of_first_write` is weakly increasing along the chain at every
reachable state. -/
theorem persistable_row_count_eq_filter {s : PersistenceWindows}
    (h : Reachable s) (now : Int) :
    s.persistable_row_count now =
      ((s.windowsList.filter fun w =>
        w.is_persistable now s.late_arrival_period).map Window.row_count).sum := by
  obtain ⟨i1, i2, -, -, -, -⟩ := PersistenceWindows.reachable_SInv h
  have hpw : List.Pairwise (fun a b =>
      b.is_persistable now s.late_arrival_period = true →
      a.is_persistable now s.late_arrival_period = true) s.windowsList := by
    refine List.Pairwise.imp_of_mem ?_ i1
    intro a b ha hb hab hpb
    rw [is_persistable_iff] at hpb ⊢
    have hwa := (i2 a ha).1
    have hfw : a.time_of_first_write ≤ b.time_of_first_write := le_trans hwa hab
    omega
  rw [PersistenceWindows.persistable_row_count,
    takeWhile_eq_filter_of_pairwise hpw]

theorem persistable_row_count_eq_filter_witness :
    c4_state.persistable_row_count 50 =
      ((c4_state.windowsList.filter fun w =>
        w.is_persistable 50 c4_state.late_arrival_period).map Window.row_count).sum :=
  persistable_row_count_eq_filter c4_state_reachable 50

/-- C6: `flush_handle` returns `none` iff a handle is already outstanding
(the state is frozen) or, after the rotation that moves any open window to
`closed`, there is no persistable window; otherwise the handle carries
`timestamp = persistable.max_time` and `closed_count = len(closed)` at that
moment. -/
theorem flush_handle_none_iff {s s' t : PersistenceWindows} {now : Int}
    {r : Option FlushHandle}
    (hf : s.flush_handle_impl now = some (r, s'))
    (hrot : ({ s with closed := s.closed ++ s.openW.toList, openW := none } : PersistenceWindows).rotate_impl now = some t) :
    (r = none ↔ s.frozen = true ∨ t.persistable = none) ∧
    ∀ h, r = some h → ∃ p, t.persistable = some p ∧
      h.timestamp = p.max_time ∧ h.closed_count = t.closed.length := by
  rcases PersistenceWindows.flush_handle_impl_some_eq hf with
    ⟨hfz, hr, -⟩ | ⟨hfz, t', hrot', hcase⟩
  · subst hr
    exact ⟨⟨fun _ => Or.inl hfz, fun _ => rfl⟩, fun h hh => Option.noConfusion hh⟩
  · have ht : t' = t := Option.some.inj (hrot'.symm.trans hrot)
    subst ht
    rcases hcase with ⟨hp, hr, -⟩ | ⟨p, seqs, hp, -, hr, -⟩
    · subst hr
      exact ⟨⟨fun _ => Or.inr hp, fun _ => rfl⟩, fun h hh => Option.noConfusion hh⟩
    · subst hr
      refine ⟨⟨fun hn => Option.noConfusion hn, fun hor => ?_⟩, fun h hh => ?_⟩
      · rcases hor with hofz | hop
        · rw [hfz] at hofz; exact Bool.noConfusion hofz
        · rw [hp] at hop; exact Option.noConfusion hop
      · cases Option.some.inj hh
        exact ⟨p, hp, rfl, rfl⟩

theorem flush_handle_none_iff_witness :
    (c6_res.1 = none ↔ c6_base.frozen = true ∨ c6_rot.persistable = none) ∧
    (c6_res.1.getD emptyHandle).timestamp =
      (c6_rot.persistable.getD (Window.new 0 none 0 0 0)).max_time ∧
    (c6_res.1.getD emptyHandle).closed_count = c6_rot.closed.length := by
  have h := @flush_handle_none_iff c6_base c6_res.2 c6_rot 25 c6_res.1
    (by decide) (by decide)
  obtain ⟨p, hp, ht, hc⟩ := h.2 (c6_res.1.getD emptyHandle) (by decide)
  refine ⟨h.1, ?_, hc⟩
  rw [ht, hp]
  rfl

theorem add_range_openW_none {s : PersistenceWindows} {q : Option Sequence}
    {rc : Nat} {mint maxt nw nr : Int} {s'' : PersistenceWindows}
    (hopen : s.openW = none)
    (h : s.add_range q rc mint maxt nw nr = some s'') :
    s''.openW = some (Window.new (max s.time_of_last_write nw) q rc mint maxt) := by
  have h' := h
  simp only [PersistenceWindows.add_range] at h'
  split at h'
  · split at h'
    · exact Option.noConfusion h'
    · next maxSeqs heq =>
      split at h'
      · exact Option.noConfusion h'
      · next s2 hrot2 =>
        have h2 : s2.openW = none := by
          refine PersistenceWindows.rotate_impl_openW_none ?_ hrot2
          exact hopen
        rw [h2] at h'
        simp only [Option.some.injEq] at h'
        rw [← h']
  · exact Option.noConfusion h'

/-- C10: a `flush_handle` call on an unfrozen state with an open window and
nothing persistable after rotation returns `none` yet still mutates the
state: the open window has moved to the tail of `closed`, the open slot is
empty, and a subsequent successful `add_range` starts a fresh open window. -/
theorem flush_handle_failure_not_atomic {s s' : PersistenceWindows} {now : Int}
    {w : Window}
    (hfz : s.frozen = false) (hopen : s.openW = some w)
    (hf : s.flush_handle_impl now = some (none, s'))
    (hnp : s'.persistable = none) :
    s'.closed = s.closed ++ [w] ∧ s'.openW = none ∧
    ∀ q rc mint maxt nw nr s'', s'.add_range q rc mint maxt nw nr = some s'' →
      s''.openW = some (Window.new (max s'.time_of_last_write nw) q rc mint maxt) := by
  rcases PersistenceWindows.flush_handle_impl_some_eq hf with
    ⟨hfz', -, -⟩ | ⟨-, t, hrot, hcase⟩
  · rw [hfz] at hfz'; exact Bool.noConfusion hfz'
  · rcases hcase with ⟨hp, -, hs'⟩ | ⟨p, seqs, -, -, hr, -⟩
    · subst hs'
      have hdo : ¬ (match ({ s with closed := s.closed ++ s.openW.toList, openW := none } : PersistenceWindows).openW with
          | some w => w.is_closeable now ({ s with closed := s.closed ++ s.openW.toList, openW := none } : PersistenceWindows).closed_window_period
          | none => false) = true := by simp
      have hmfz : ¬ ({ s with closed := s.closed ++ s.openW.toList, openW := none } : PersistenceWindows).frozen = true := by
        dsimp only
        rw [hfz]
        simp
      rw [PersistenceWindows.rotate_impl_eq_stay_unfrozen _ now hdo hmfz] at hrot
      dsimp only at hrot
      cases hl : PersistenceWindows.rotateLoop s.persistable
          (s.closed ++ s.openW.toList) now s.late_arrival_period with
      | none => rw [hl] at hrot; exact Option.noConfusion hrot
      | some pc =>
        obtain ⟨pc1, pc2⟩ := pc
        rw [hl] at hrot
        simp only [Option.map_some', Option.some.injEq] at hrot
        subst hrot
        dsimp only at hnp
        subst hnp
        obtain ⟨-, hc2⟩ := PersistenceWindows.rotateLoop_none hl
        refine ⟨?_, rfl, ?_⟩
        · dsimp only
          rw [hc2, hopen]
          rfl
        · intro q rc mint maxt nw nr s'' hadd
          exact add_range_openW_none rfl hadd
    · exact Option.noConfusion hr

theorem flush_handle_failure_not_atomic_witness :
    c10_s1.closed = c10_base.closed ++ [c10_w] ∧ c10_s1.openW = none ∧
    c10_s2.openW = some (Window.new (max c10_s1.time_of_last_write 2) (some ⟨1, 2⟩) 1 0 5) := by
  obtain ⟨h1, h2, h3⟩ := @flush_handle_failure_not_atomic c10_base c10_s1 1 c10_w
    (by decide) (by decide) (by decide) (by decide)
  exact ⟨h1, h2, h3 (some ⟨1, 2⟩) 1 0 5 2 2 c10_s2 (by decide)⟩

namespace PersistenceWindows

theorem move_open_SInv {s : PersistenceWindows} (hinv : SInv s) :
    SInv ({ s with closed := s.closed ++ s.openW.toList, openW := none } : PersistenceWindows) := by
  obtain ⟨i1, i2, i3, i4, i5, i6⟩ := hinv
  refine ⟨?_, ?_, ?_, ?_, ?_, i6⟩
  · rw [windowsList_move]; exact i1
  · rw [windowsList_move]; exact i2
  · rw [windowsList_move]; exact i3
  · rw [windowsList_move]; exact i4
  · rw [windowsList_move]; exact i5

theorem sequencer_numbers_inner_skip_some {s : PersistenceWindows} {p : Window}
    (hp : s.persistable = some p) :
    s.sequencer_numbers_inner true = seqTraverse (fun kv =>
      match firstSeq (s.windowsList.drop 1) (some p.max_time) kv.1 with
      | some mm =>
        if mm.max ≤ kv.2 then some (kv.1, OptionalMinMaxSequence.mk (some mm.min) kv.2)
        else none
      | none => some (kv.1, OptionalMinMaxSequence.mk none kv.2))
      s.max_sequence_numbers := by
  simp only [sequencer_numbers_inner, hp]

theorem sequencer_numbers_inner_noskip (s : PersistenceWindows) :
    s.sequencer_numbers_inner false = seqTraverse (fun kv =>
      match firstSeq s.windowsList none kv.1 with
      | some mm =>
        if mm.max ≤ kv.2 then some (kv.1, OptionalMinMaxSequence.mk (some mm.min) kv.2)
        else none
      | none => some (kv.1, OptionalMinMaxSequence.mk none kv.2))
      s.max_sequence_numbers := by
  cases hp : s.persistable with
  | none => simp only [sequencer_numbers_inner, hp, List.drop_zero]
  | some p => simp only [sequencer_numbers_inner, hp, List.drop_zero]

end PersistenceWindows

/-- C9: for a handle taken by `flush_handle`, replaying its checkpoint with
`mark_seen_and_persisted` and then completing the flush leaves
`sequencer_numbers()` equal to the speculative post-flush map
`h.checkpoint().sequencer_numbers` computed at handle creation, when no
`add_range` call intervenes. -/
theorem checkpoint_flush_roundtrip {s0 s1 s3 : PersistenceWindows} {now : Int}
    {h : FlushHandle}
    (hinv : SInv s0)
    (hfh : s0.flush_handle_impl now = some (some h, s1))
    (hfl : (s1.mark_seen_and_persisted h.checkpoint).flush h = some s3) :
    s3.sequencer_numbers = some h.checkpoint.sequencer_numbers := by
  rcases PersistenceWindows.flush_handle_impl_some_eq hfh with
    ⟨-, hr, -⟩ | ⟨-, t, hrot, hcase⟩
  · exact Option.noConfusion hr
  · rcases hcase with ⟨-, hr, -⟩ | ⟨p, seqs, hp, hinner, hr, hs1⟩
    · exact Option.noConfusion hr
    · cases Option.some.inj hr
      subst hs1
      have hinvt : SInv t :=
        PersistenceWindows.rotate_impl_SInv (PersistenceWindows.move_open_SInv hinv) hrot
      have hopent : t.openW = none :=
        PersistenceWindows.rotate_impl_openW_none rfl hrot
      have hwlt : t.windowsList = p :: t.closed := by
        simp [PersistenceWindows.windowsList, hp, hopent]
      rw [PersistenceWindows.sequencer_numbers_inner_skip_some hp] at hinner
      have hentries : ∀ b ∈ seqs, ∃ g,
          SeqMap.lookup b.1 t.max_sequence_numbers = some g ∧ b.2.max ≤ g := by
        intro b hb
        obtain ⟨kv, hkv, hfkv⟩ := seqTraverse_mem hinner b hb
        have hlk : SeqMap.lookup kv.1 t.max_sequence_numbers = some kv.2 :=
          SeqMap.mem_lookup_sorted hinvt.2.2.2.2.2 hkv
        cases hfs : PersistenceWindows.firstSeq (t.windowsList.drop 1) (some p.max_time) kv.1 with
        | none =>
          rw [hfs] at hfkv
          dsimp only at hfkv
          cases Option.some.inj hfkv
          exact ⟨kv.2, hlk, le_refl _⟩
        | some mm =>
          rw [hfs] at hfkv
          dsimp only at hfkv
          by_cases hle : mm.max ≤ kv.2
          · rw [if_pos hle] at hfkv
            cases Option.some.inj hfkv
            exact ⟨kv.2, hlk, le_refl _⟩
          · rw [if_neg hle] at hfkv
            exact Option.noConfusion hfkv
      have hmseq := PersistenceWindows.markSeen_maxseq_id seqs
        t.max_sequence_numbers hinvt.2.2.2.2.2 hentries
      obtain ⟨p', hp', hts', hcc', hfz', e1, e2, e3, e4, e5, e6, e7, hbr⟩ :=
        PersistenceWindows.flush_eq hfl
      have hpp : p' = p := Option.some.inj (hp'.symm.trans hp)
      subst hpp
      have hopen3 : s3.openW = none := by rw [e3]; exact hopent
      have hms3 : s3.max_sequence_numbers = t.max_sequence_numbers := by
        rw [e5]; exact hmseq
      rw [PersistenceWindows.sequencer_numbers,
        PersistenceWindows.sequencer_numbers_inner_noskip, hms3]
      rcases hbr with ⟨new_min, hadd, hcl⟩ | ⟨hadd, hcl⟩
      · -- no overflow: closed windows are truncated and filtered
        have hnm : new_min = p'.max_time + 1 := by
          have hadd' : checkedAdd p'.max_time 1 = some new_min := hadd
          simp only [checkedAdd] at hadd'
          split at hadd'
          · have := Option.some.inj hadd'
            omega
          · exact Option.noConfusion hadd'
        have hcl' : s3.closed =
            (t.closed.map (PersistenceWindows.truncMin new_min)).filter
              (fun w => new_min ≤ w.max_time) := by
          rw [hcl]
          dsimp only [PersistenceWindows.mark_seen_and_persisted]
          rw [List.take_length, List.drop_length, List.append_nil]
        have hwl3 : s3.windowsList = s3.closed := by
          simp [PersistenceWindows.windowsList, e1, hopen3]
        have hfs_eq : ∀ k,
            PersistenceWindows.firstSeq ((t.closed.map (PersistenceWindows.truncMin new_min)).filter
              (fun w => new_min ≤ w.max_time)) none k =
            PersistenceWindows.firstSeq t.closed (some p'.max_time) k := by
          intro k
          simp only [PersistenceWindows.firstSeq]
          rw [findSome?_filter, findSome?_map]
          refine findSome?_congr ?_
          intro w hw
          rw [PersistenceWindows.truncMin_max, PersistenceWindows.truncMin_seq]
          by_cases hle : w.max_time ≤ p'.max_time
          · have h1 : ¬ new_min ≤ w.max_time := by omega
            simp [hle, h1]
          · have h1 : new_min ≤ w.max_time := by omega
            simp [hle, h1]
        refine Eq.trans ?_ hinner
        refine seqTraverse_congr ?_
        intro kv hkv
        rw [hwl3, hcl', hwlt]
        simp only [List.drop_succ_cons, List.drop_zero]
        rw [hfs_eq kv.1]
      · -- overflow at Time::MAX: all closed windows are dropped, and the
        -- handle's map already recorded `none` for every sequencer
        have hpm : p'.max_time = timeMax := by
          have hadd' : checkedAdd p'.max_time 1 = none := hadd
          simp only [checkedAdd] at hadd'
          split at hadd'
          · exact Option.noConfusion hadd'
          · next hgt =>
            have hle := (hinvt.2.1 p' (by
              rw [hwlt]; exact List.mem_cons_self _ _)).2.2.2.2.2
            omega
        have hwl3 : s3.windowsList = [] := by
          simp [PersistenceWindows.windowsList, e1, hopen3, hcl]
        refine Eq.trans ?_ hinner
        refine seqTraverse_congr ?_
        intro kv hkv
        have hright : PersistenceWindows.firstSeq (t.windowsList.drop 1) (some p'.max_time) kv.1 = none := by
          rw [hwlt]
          simp only [List.drop_succ_cons, List.drop_zero]
          simp only [PersistenceWindows.firstSeq]
          refine findSome?_eq_none_of ?_
          intro w hw
          have hwin := (hinvt.2.1 w (by
            rw [hwlt]; exact List.mem_cons_of_mem _ hw)).2.2.2.2.2
          have hwle : w.max_time ≤ p'.max_time := by rw [hpm]; exact hwin
          simp [hwle]
        rw [hwl3, hright]
        rfl

theorem checkpoint_flush_roundtrip_witness :
    r9_s3.sequencer_numbers = some r9_h.checkpoint.sequencer_numbers :=
  @checkpoint_flush_roundtrip r9_s0 r9_s1 r9_s3 347069490749 r9_h
    (by decide) (by decide) (by decide)
